import Mathlib

/-! Verification development for the SwiftFetch native messaging host
(`SwiftFetch/Resources/native_host.py`).  The host exchanges
length-delimited JSON messages with a browser extension over stdin/stdout:
`read_message` / `write_message` form the framed-channel codec, `main` is
the dispatcher loop, and `handle_download` is the action invoker.  This
file gives a shallow embedding of that program over byte lists
(`List Nat`) and code-point strings (`List Char`), modelling the Python
standard-library pieces the host calls (`struct.pack`/`unpack` with
format `I`, strict UTF-8 encoding/decoding, and `json.dumps`/`json.loads`
with their default options) and proves the specified properties.

Model limitations, stated once here: IEEE-754 floats (JSON number tokens
with a fraction or exponent, and `NaN`/`Infinity` constants) and lone
UTF-16 surrogates inside `\uXXXX` string escapes are outside the model —
the parser reports a distinguished `modelLimitation` fault for them
instead of producing a value.  Exception *description strings* for
standard-library faults are modelled faithfully in structure but not
always in exact text (several Python messages embed byte positions); no
claim depends on that text. -/

namespace NativeHost

/-- `struct.pack('I', n)`: the 4-byte unsigned little-endian encoding of
`n` (native byte order on the target macOS platform is little-endian).
Only used with `n < 2^32`; `struct.pack` itself raises for larger `n`,
which the embedding checks at the call site. -/
def toLE4 (n : Nat) : List Nat :=
  [n % 256, n / 256 % 256, n / 65536 % 256, n / 16777216 % 256]

/-- `struct.unpack('I', bs)[0]` for a 4-byte buffer: the unsigned
little-endian value.  `read_message` only calls this after checking the
buffer length, mirroring the fact that `struct.unpack` raises on any
other length. -/
def leVal (bs : List Nat) : Nat :=
  match bs with
  | [b0, b1, b2, b3] => b0 + 256 * b1 + 65536 * b2 + 16777216 * b3
  | _ => 0

/-- UTF-8 encoding of one code point (Lean `Char` is a Unicode scalar
value, so no surrogates arise). -/
def utf8EncodeChar (c : Char) : List Nat :=
  let n := c.toNat
  if n < 128 then [n]
  else if n < 2048 then [192 + n / 64, 128 + n % 64]
  else if n < 65536 then [224 + n / 4096, 128 + n / 64 % 64, 128 + n % 64]
  else [240 + n / 262144, 128 + n / 4096 % 64, 128 + n / 64 % 64, 128 + n % 64]

/-- UTF-8 encoding of a string (`str.encode('utf-8')`). -/
def utf8Encode : List Char → List Nat
  | [] => []
  | c :: cs => utf8EncodeChar c ++ utf8Encode cs

/-- Fuel-indexed strict UTF-8 decoder (`bytes.decode('utf-8')`): rejects
truncated sequences, overlong encodings, surrogate code points and values
above `0x10FFFF`, exactly as CPython's strict UTF-8 codec does.  The fuel
only bounds recursion depth; `utf8Decode` supplies enough for any input. -/
def utf8DecodeF : Nat → List Nat → Option (List Char)
  | 0, _ => none
  | _ + 1, [] => some []
  | f + 1, b :: bs =>
    if b < 128 then (utf8DecodeF f bs).map (fun cs => Char.ofNat b :: cs)
    else if b < 194 then none
    else if b < 224 then
      match bs with
      | b1 :: bs1 =>
        if 128 ≤ b1 ∧ b1 < 192 then
          (utf8DecodeF f bs1).map (fun cs => Char.ofNat ((b - 192) * 64 + (b1 - 128)) :: cs)
        else none
      | [] => none
    else if b < 240 then
      match bs with
      | b1 :: b2 :: bs2 =>
        if (if b = 224 then 160 else 128) ≤ b1 ∧ b1 < (if b = 237 then 160 else 192) ∧
            128 ≤ b2 ∧ b2 < 192 then
          (utf8DecodeF f bs2).map
            (fun cs => Char.ofNat ((b - 224) * 4096 + (b1 - 128) * 64 + (b2 - 128)) :: cs)
        else none
      | _ => none
    else if b < 245 then
      match bs with
      | b1 :: b2 :: b3 :: bs3 =>
        if (if b = 240 then 144 else 128) ≤ b1 ∧ b1 < (if b = 244 then 144 else 192) ∧
            128 ≤ b2 ∧ b2 < 192 ∧ 128 ≤ b3 ∧ b3 < 192 then
          (utf8DecodeF f bs3).map
            (fun cs =>
              Char.ofNat ((b - 240) * 262144 + (b1 - 128) * 4096 + (b2 - 128) * 64 + (b3 - 128)) :: cs)
        else none
      | _ => none
    else none

/-- Strict UTF-8 decoding of a byte list, `none` on invalid data. -/
def utf8Decode (bs : List Nat) : Option (List Char) :=
  utf8DecodeF (bs.length + 1) bs

mutual
/-- The JSON values the host's messages range over.  Numbers are modelled
as integers only (see the header comment on floats).  `Json.obj` keeps
members in insertion order like a Python `dict`. -/
inductive Json where
  | null : Json
  | bool (b : Bool) : Json
  | int (n : Int) : Json
  | str (s : List Char) : Json
  | arr (elems : JsonList) : Json
  | obj (members : JsonMembers) : Json

/-- A list of JSON values (spelled out so that structural recursion over
`Json` is available in Lean 4.14). -/
inductive JsonList where
  | nil : JsonList
  | cons (hd : Json) (tl : JsonList) : JsonList

/-- An ordered association list of string-keyed JSON members. -/
inductive JsonMembers where
  | nil : JsonMembers
  | cons (key : List Char) (val : Json) (tl : JsonMembers) : JsonMembers
end

/-- Build a `JsonList` from an ordinary list. -/
def JsonList.ofList : List Json → JsonList
  | [] => .nil
  | x :: xs => .cons x (JsonList.ofList xs)

/-- Build `JsonMembers` from an ordinary association list. -/
def JsonMembers.ofList : List (List Char × Json) → JsonMembers
  | [] => .nil
  | (k, v) :: xs => .cons k v (JsonMembers.ofList xs)

/-- Python truthiness of a decoded JSON value (`bool(message)`): falsy are
`None`, `False`, `0`, `''`, `[]`, `{}`. -/
def Json.truthy : Json → Bool
  | .null => false
  | .bool b => b
  | .int n => if n = 0 then false else true
  | .str s => if s = [] then false else true
  | .arr .nil => false
  | .arr (.cons _ _) => true
  | .obj .nil => false
  | .obj (.cons _ _ _) => true

/-- First value bound to `k` in a member list (Python `dict` lookup; the
parser below never produces duplicate keys, matching `dict`). -/
def JsonMembers.lookup : JsonMembers → List Char → Option Json
  | .nil, _ => none
  | .cons k v tl, key => if k = key then some v else tl.lookup key

/-- `message.get(key, default)` on a decoded JSON object. -/
def JsonMembers.getD (ms : JsonMembers) (key : List Char) (dflt : Json) : Json :=
  match ms.lookup key with
  | some v => v
  | none => dflt

/-- Decimal digit character. -/
def digitChar (d : Nat) : Char := Char.ofNat (48 + d)

/-- Fuel-indexed decimal rendering of a natural number (most significant
digit first); `natToChars` supplies sufficient fuel. -/
def natToCharsF : Nat → Nat → List Char
  | 0, _ => []
  | f + 1, n => if n < 10 then [digitChar n] else natToCharsF f (n / 10) ++ [digitChar (n % 10)]

/-- Decimal rendering of a natural number, as Python `str` produces it. -/
def natToChars (n : Nat) : List Char := natToCharsF (n + 1) n

/-- Python `str(int)`: optional minus sign followed by decimal digits. -/
def intToChars (n : Int) : List Char :=
  if n < 0 then '-' :: natToChars n.natAbs else natToChars n.toNat

/-- Lowercase hexadecimal digit character, as `'\uXXXX' % ord` formats. -/
def hexDigitChar (d : Nat) : Char :=
  if d < 10 then Char.ofNat (48 + d) else Char.ofNat (87 + d)

/-- Four lowercase hex digits of `n < 0x10000`. -/
def toHex4 (n : Nat) : List Char :=
  [hexDigitChar (n / 4096 % 16), hexDigitChar (n / 256 % 16),
   hexDigitChar (n / 16 % 16), hexDigitChar (n % 16)]

/-- Escaping of one character by `json.dumps` with its default
`ensure_ascii=True`: the short named escapes, `\uXXXX` for all other
characters outside printable ASCII `0x20..0x7E`, and UTF-16 surrogate
pairs for code points above `0xFFFF`. -/
def escapeChar (c : Char) : List Char :=
  let n := c.toNat
  if c = '\\' then ['\\', '\\']
  else if c = '"' then ['\\', '"']
  else if n = 8 then ['\\', 'b']
  else if n = 9 then ['\\', 't']
  else if n = 10 then ['\\', 'n']
  else if n = 12 then ['\\', 'f']
  else if n = 13 then ['\\', 'r']
  else if n < 32 ∨ 126 < n then
    if n < 65536 then '\\' :: 'u' :: toHex4 n
    else
      ('\\' :: 'u' :: toHex4 (55296 + (n - 65536) / 1024)) ++
        ('\\' :: 'u' :: toHex4 (56320 + (n - 65536) % 1024))
  else [c]

/-- Escaping of a whole string body (without the surrounding quotes). -/
def escapeChars : List Char → List Char
  | [] => []
  | c :: cs => escapeChar c ++ escapeChars cs

/-- A `json.dumps` string literal: quotes around the escaped body. -/
def dumpStr (s : List Char) : List Char := '"' :: escapeChars s ++ ['"']

mutual
/-- `json.dumps` with its default options: `ensure_ascii=True` and
item/key separators `', '` and `': '`. -/
def dumps : Json → List Char
  | .null => "null".data
  | .bool true => "true".data
  | .bool false => "false".data
  | .int n => intToChars n
  | .str s => dumpStr s
  | .arr .nil => ['[', ']']
  | .arr (.cons x tl) => '[' :: (dumps x ++ dumpsArrTail tl) ++ [']']
  | .obj .nil => ['{', '}']
  | .obj (.cons k v tl) =>
      '{' :: (dumpStr k ++ ':' :: ' ' :: dumps v ++ dumpsObjTail tl) ++ ['}']

/-- Remaining array items, each preceded by the `', '` separator. -/
def dumpsArrTail : JsonList → List Char
  | .nil => []
  | .cons x tl => ',' :: ' ' :: dumps x ++ dumpsArrTail tl

/-- Remaining object members, each preceded by the `', '` separator and
using the `': '` key separator. -/
def dumpsObjTail : JsonMembers → List Char
  | .nil => []
  | .cons k v tl => ',' :: ' ' :: dumpStr k ++ ':' :: ' ' :: dumps v ++ dumpsObjTail tl
end

/-- JSON whitespace, as `json.decoder.WHITESPACE` matches it. -/
def isWs (c : Char) : Bool := c == ' ' || c == '\t' || c == '\n' || c == '\r'

/-- Skip JSON whitespace. -/
def skipWs (s : List Char) : List Char := s.dropWhile isWs

/-- Internal parser faults of the `json.loads` model:
`err` carries the `JSONDecodeError` message and the remaining input at the
error position, `lim` marks the model limitations listed in the header,
and `fuel` is the (unreachable with the fuel `loads` supplies for inputs
this development evaluates) recursion bound artifact. -/
inductive PErr where
  | err (msg : List Char) (rest : List Char)
  | lim (what : List Char)
  | fuel

/-- Value of a hexadecimal digit character. -/
def hexVal (c : Char) : Option Nat :=
  let n := c.toNat
  if 48 ≤ n ∧ n ≤ 57 then some (n - 48)
  else if 97 ≤ n ∧ n ≤ 102 then some (n - 87)
  else if 65 ≤ n ∧ n ≤ 70 then some (n - 55)
  else none

/-- `_decode_uXXXX`: the value of the four hex digits after `\u` (the
caller advances past them with `List.drop 4`). -/
def hex4 : List Char → Option Nat
  | c1 :: c2 :: c3 :: c4 :: _ =>
    match hexVal c1, hexVal c2, hexVal c3, hexVal c4 with
    | some d1, some d2, some d3, some d4 => some (4096 * d1 + 256 * d2 + 16 * d3 + d4)
    | _, _, _, _ => none
  | _ => none

/-- The `BACKSLASH` table of `json.decoder`: short escapes. -/
def escTable (e : Char) : Option Char :=
  if e = '"' then some '"'
  else if e = '\\' then some '\\'
  else if e = '/' then some '/'
  else if e = 'b' then some (Char.ofNat 8)
  else if e = 'f' then some (Char.ofNat 12)
  else if e = 'n' then some (Char.ofNat 10)
  else if e = 'r' then some (Char.ofNat 13)
  else if e = 't' then some (Char.ofNat 9)
  else none

/-- ASCII decimal digit test. -/
def isDigit (c : Char) : Bool := 48 ≤ c.toNat && c.toNat ≤ 57

/-- Fuel-indexed model of `py_scanstring` (strict mode): positioned right
after the opening quote, returns the string body and the input after the
closing quote.  Handles the short escapes, `\uXXXX` (combining surrogate
pairs as CPython does), rejects raw control characters, and reports
unterminated strings.  One step consumes at least one input character, so
`scanString` below always supplies sufficient fuel. -/
def scanStringF : Nat → List Char → Except PErr (List Char × List Char)
  | 0, _ => .error .fuel
  | _ + 1, [] => .error (.err "Unterminated string starting at".data [])
  | f + 1, c :: cs =>
    if c = '"' then .ok ([], cs)
    else if c = '\\' then
      match cs with
      | [] => .error (.err "Unterminated string starting at".data [])
      | e :: cs2 =>
        if e = 'u' then
          match hex4 cs2 with
          | none => .error (.err "Invalid \\uXXXX escape".data cs2)
          | some u =>
            if 55296 ≤ u ∧ u ≤ 56319 then
              match cs2.drop 4 with
              | b :: e2 :: cs4 =>
                if b = '\\' ∧ e2 = 'u' then
                  match hex4 cs4 with
                  | some u2 =>
                    if 56320 ≤ u2 ∧ u2 ≤ 57343 then
                      (scanStringF f (cs4.drop 4)).map (fun br =>
                        (Char.ofNat (65536 + (u - 55296) * 1024 + (u2 - 56320)) :: br.1, br.2))
                    else .error (.lim "lone surrogate in \\uXXXX escape".data)
                  | none => .error (.lim "lone surrogate in \\uXXXX escape".data)
                else .error (.lim "lone surrogate in \\uXXXX escape".data)
              | _ => .error (.lim "lone surrogate in \\uXXXX escape".data)
            else if 56320 ≤ u ∧ u ≤ 57343 then
              .error (.lim "lone surrogate in \\uXXXX escape".data)
            else (scanStringF f (cs2.drop 4)).map (fun br => (Char.ofNat u :: br.1, br.2))
        else
          match escTable e with
          | some c' => (scanStringF f cs2).map (fun br => (c' :: br.1, br.2))
          | none => .error (.err "Invalid \\escape".data cs)
    else if c.toNat < 32 then .error (.err "Invalid control character at".data (c :: cs))
    else (scanStringF f cs).map (fun br => (c :: br.1, br.2))

/-- `py_scanstring` with its fuel supplied. -/
def scanString (s : List Char) : Except PErr (List Char × List Char) :=
  scanStringF (s.length + 1) s

/-- The unsigned integer part of `json.decoder.NUMBER_RE`:
`(?:0|[1-9]\d*)` — a lone zero, or a nonzero digit followed by a maximal
run of digits. -/
def matchUInt : List Char → Option (Nat × List Char)
  | [] => none
  | c :: rest =>
    if c = '0' then some (0, rest)
    else if isDigit c then
      some (((c :: rest.takeWhile isDigit).foldl (fun a d => 10 * a + (d.toNat - 48)) 0),
            rest.dropWhile isDigit)
    else none

/-- The signed integer part of `NUMBER_RE`: `-?(?:0|[1-9]\d*)`. -/
def matchInt : List Char → Option (Int × List Char)
  | [] => none
  | c :: rest =>
    if c = '-' then (matchUInt rest).map (fun nr => (-(nr.1 : Int), nr.2))
    else (matchUInt (c :: rest)).map (fun nr => ((nr.1 : Int), nr.2))

/-- Whether the input continues with the fraction or exponent part of
`NUMBER_RE` (`(\.\d+)?([eE][-+]?\d+)?`), which would make the token a
float.  Floats are outside the model (header comment). -/
def fracExpPresent : List Char → Bool
  | [] => false
  | c :: tl =>
    if c = '.' then
      match tl with
      | d :: _ => isDigit d
      | [] => false
    else if c = 'e' ∨ c = 'E' then
      match tl with
      | '+' :: d :: _ => isDigit d
      | '-' :: d :: _ => isDigit d
      | d :: _ => isDigit d
      | [] => false
    else false

/-- Insert one key/value pair as Python `dict` construction does: an
existing key keeps its position and takes the new value, a new key is
appended. -/
def dictInsert : List (List Char × Json) → List Char → Json → List (List Char × Json)
  | [], k, v => [(k, v)]
  | (k', v') :: tl, k, v =>
    if k' = k then (k', v) :: tl else (k', v') :: dictInsert tl k v

/-- `dict(pairs)`: fold the parsed member pairs into a duplicate-free
insertion-ordered association list. -/
def dictFromPairs (ps : List (List Char × Json)) : List (List Char × Json) :=
  ps.foldl (fun acc kv => dictInsert acc kv.1 kv.2) []

/-- Whether the pattern (first argument) is a leading segment of the
input, as Python's slice comparisons `s[idx:idx+4] == 'null'` test it. -/
def leadsWith : List Char → List Char → Bool
  | [], _ => true
  | _ :: _, [] => false
  | p :: ps, c :: cs => decide (c = p) && leadsWith ps cs

mutual
/-- Fuel-indexed model of `_scan_once` from `json.decoder`: dispatch on
the first character to a string, object, array, literal or number. -/
def parseValF : Nat → List Char → Except PErr (Json × List Char)
  | 0, _ => .error .fuel
  | f + 1, s =>
    match s with
    | [] => .error (.err "Expecting value".data [])
    | c :: tl =>
      if c = '"' then (scanString tl).map (fun br => (Json.str br.1, br.2))
      else if c = '{' then parseObjF f tl
      else if c = '[' then parseArrF f tl
      else if leadsWith "null".data (c :: tl) then .ok (Json.null, tl.drop 3)
      else if leadsWith "true".data (c :: tl) then .ok (Json.bool true, tl.drop 3)
      else if leadsWith "false".data (c :: tl) then .ok (Json.bool false, tl.drop 4)
      else
        match matchInt (c :: tl) with
        | some (n, rest) =>
          if fracExpPresent rest then .error (.lim "float literal".data)
          else .ok (Json.int n, rest)
        | none =>
          if leadsWith "NaN".data (c :: tl) then .error (.lim "NaN constant".data)
          else if leadsWith "Infinity".data (c :: tl) then
            .error (.lim "Infinity constant".data)
          else if leadsWith "-Infinity".data (c :: tl) then
            .error (.lim "-Infinity constant".data)
          else .error (.err "Expecting value".data (c :: tl))

/-- Model of `JSONArray`, positioned right after the `[`. -/
def parseArrF : Nat → List Char → Except PErr (Json × List Char)
  | 0, _ => .error .fuel
  | f + 1, s =>
    match skipWs s with
    | [] => parseArrLoopF f [] []
    | c :: rest =>
      if c = ']' then .ok (Json.arr .nil, rest)
      else parseArrLoopF f [] (c :: rest)

/-- The element loop of `JSONArray`: value, then `]` to finish or `,` and
whitespace to continue. -/
def parseArrLoopF : Nat → List Json → List Char → Except PErr (Json × List Char)
  | 0, _, _ => .error .fuel
  | f + 1, acc, s =>
    match parseValF f s with
    | .error e => .error e
    | .ok (v, rest) =>
      match skipWs rest with
      | [] => .error (.err "Expecting ',' delimiter".data [])
      | c :: r2 =>
        if c = ']' then .ok (Json.arr (JsonList.ofList (acc ++ [v])), r2)
        else if c = ',' then parseArrLoopF f (acc ++ [v]) (skipWs r2)
        else .error (.err "Expecting ',' delimiter".data (c :: r2))

/-- Model of `JSONObject`, positioned right after the `{`. -/
def parseObjF : Nat → List Char → Except PErr (Json × List Char)
  | 0, _ => .error .fuel
  | f + 1, s =>
    match skipWs s with
    | [] => .error (.err "Expecting property name enclosed in double quotes".data [])
    | c :: rest =>
      if c = '}' then .ok (Json.obj .nil, rest)
      else if c = '"' then parseObjLoopF f [] rest
      else .error (.err "Expecting property name enclosed in double quotes".data (c :: rest))

/-- The member loop of `JSONObject`, positioned right after a key's
opening quote: key string, `:`, value, then `}` to finish or `,` and the
next key.  The collected pairs go through `dict(pairs)` at the end. -/
def parseObjLoopF : Nat → List (List Char × Json) → List Char →
    Except PErr (Json × List Char)
  | 0, _, _ => .error .fuel
  | f + 1, acc, s =>
    match scanString s with
    | .error e => .error e
    | .ok (key, r1) =>
      match skipWs r1 with
      | [] => .error (.err "Expecting ':' delimiter".data [])
      | c :: r3 =>
        if c = ':' then
          match parseValF f (skipWs r3) with
          | .error e => .error e
          | .ok (v, r5) =>
            match skipWs r5 with
            | [] => .error (.err "Expecting ',' delimiter".data [])
            | d :: r7 =>
              if d = '}' then
                .ok (Json.obj (JsonMembers.ofList (dictFromPairs (acc ++ [(key, v)]))), r7)
              else if d = ',' then
                match skipWs r7 with
                | [] =>
                  .error (.err "Expecting property name enclosed in double quotes".data [])
                | q :: r8 =>
                  if q = '"' then parseObjLoopF f (acc ++ [(key, v)]) r8
                  else .error
                    (.err "Expecting property name enclosed in double quotes".data (q :: r8))
              else .error (.err "Expecting ',' delimiter".data (d :: r7))
        else .error (.err "Expecting ':' delimiter".data (c :: r3))
end

/-- The faults a loop iteration of the host can hit, each corresponding
to a Python exception (or, for `modelLimitation`, to an input outside
this model — see the header comment). -/
inductive Fault where
  | structError
  | unicodeError
  | jsonError (desc : List Char)
  | attrError (tyName : List Char)
  | writeError
  | packError
  | modelLimitation (what : List Char)

/-- Line and column of a position in a text, counted as
`JSONDecodeError.__init__` counts them (1-based; a newline resets the
column). -/
def lineColOf (text : List Char) (pos : Nat) : Nat × Nat :=
  (text.take pos).foldl (fun lc c => if c = '\n' then (lc.1 + 1, 1) else (lc.1, lc.2 + 1)) (1, 1)

/-- The rendered `JSONDecodeError` message:
`"<msg>: line <l> column <c> (char <pos>)"`. -/
def mkJsonDesc (msg : List Char) (text : List Char) (rest : List Char) : List Char :=
  let pos := text.length - rest.length
  let lc := lineColOf text pos
  msg ++ ": line ".data ++ natToChars lc.1 ++ " column ".data ++ natToChars lc.2 ++
    " (char ".data ++ natToChars pos ++ [')']

/-- Model of `json.loads`: skip leading whitespace, parse one value, skip
trailing whitespace, and require the input to be exhausted. -/
def loads (text : List Char) : Except Fault Json :=
  match parseValF (2 * text.length + 4) (skipWs text) with
  | .error (.err msg rest) => .error (.jsonError (mkJsonDesc msg text rest))
  | .error (.lim w) => .error (.modelLimitation w)
  | .error .fuel => .error (.modelLimitation "parser fuel exhausted".data)
  | .ok (v, rest) =>
    match skipWs rest with
    | [] => .ok v
    | rest2 => .error (.jsonError (mkJsonDesc "Extra data".data text rest2))

/-- Python `str(e)` for the modelled faults.  Structure is faithful;
texts that embed positions or byte values in CPython are abbreviated
(header comment) — no claim depends on them. -/
def describe : Fault → List Char
  | .structError => "unpack requires a buffer of 4 bytes".data
  | .unicodeError => "'utf-8' codec can't decode bytes: invalid data".data
  | .jsonError d => d
  | .attrError t => '\'' :: (t ++ "' object has no attribute 'get'".data)
  | .writeError => "[Errno 32] Broken pipe".data
  | .packError => "'I' format requires 0 <= number <= 4294967295".data
  | .modelLimitation w => "model limitation: ".data ++ w

/-- One character of a Python string `repr`, given the chosen quote. -/
def pyReprChar (q : Char) (c : Char) : List Char :=
  if c = '\\' then ['\\', '\\']
  else if c = q then ['\\', q]
  else if c.toNat = 10 then ['\\', 'n']
  else if c.toNat = 13 then ['\\', 'r']
  else if c.toNat = 9 then ['\\', 't']
  else if c.toNat < 32 ∨ c.toNat = 127 then
    ['\\', 'x', hexDigitChar (c.toNat / 16 % 16), hexDigitChar (c.toNat % 16)]
  else [c]

/-- Python `repr` of a string: single quotes, switching to double quotes
when the text contains a single quote but no double quote.  (Python also
escapes non-printable characters above ASCII; the model keeps those
as-is — only the f-string rendering of *non-string* `type` fields ever
uses this, which no claim exercises.) -/
def pyReprStr (s : List Char) : List Char :=
  let q := if s.contains '\'' && !s.contains '"' then '"' else '\''
  q :: (s.foldr (fun c acc => pyReprChar q c ++ acc) []) ++ [q]

mutual
/-- Python `repr` of a decoded JSON value (used by `str` on containers,
e.g. in the dispatcher's f-string for unknown message types). -/
def pyRepr : Json → List Char
  | .null => ['N', 'o', 'n', 'e']
  | .bool true => ['T', 'r', 'u', 'e']
  | .bool false => ['F', 'a', 'l', 's', 'e']
  | .int n => intToChars n
  | .str s => pyReprStr s
  | .arr .nil => ['[', ']']
  | .arr (.cons x tl) => '[' :: (pyRepr x ++ pyReprArrTail tl) ++ [']']
  | .obj .nil => ['{', '}']
  | .obj (.cons k v tl) =>
      '{' :: (pyReprStr k ++ ':' :: ' ' :: pyRepr v ++ pyReprObjTail tl) ++ ['}']

/-- Remaining `repr` list items, `', '`-separated. -/
def pyReprArrTail : JsonList → List Char
  | .nil => []
  | .cons x tl => ',' :: ' ' :: pyRepr x ++ pyReprArrTail tl

/-- Remaining `repr` dict items, `', '`-separated with `': '` after keys. -/
def pyReprObjTail : JsonMembers → List Char
  | .nil => []
  | .cons k v tl => ',' :: ' ' :: pyReprStr k ++ ':' :: ' ' :: pyRepr v ++ pyReprObjTail tl
end

/-- Python `str` of a decoded JSON value, as an f-string renders it: a
string is itself, everything else is its `repr`. -/
def pyStr : Json → List Char
  | .str s => s
  | v => pyRepr v

/-- The Python type name of a decoded JSON value, as it appears in
`AttributeError` messages. -/
def pyTypeName : Json → List Char
  | .null => "NoneType".data
  | .bool _ => "bool".data
  | .int _ => "int".data
  | .str _ => "str".data
  | .arr _ => "list".data
  | .obj _ => "dict".data

/-- `read_message`: read 4 bytes from the stream; empty means clean
end-of-stream (`None`).  A 1–3 byte read makes `struct.unpack` raise.
Otherwise interpret the 4 bytes as the unsigned native-endian (=
little-endian) length `N`, read up to `N` payload bytes — `read(N)` on a
buffered stream returns fewer only at end-of-stream, and the code does
not check the count — UTF-8-decode them and parse JSON.  Returns the
outcome together with the bytes left on the stream. -/
def readMessage (input : List Nat) : Except Fault (Option Json) × List Nat :=
  let rawLength := input.take 4
  if rawLength.length = 0 then (.ok none, input.drop 4)
  else if rawLength.length < 4 then (.error .structError, input.drop 4)
  else
    let msgLength := leVal rawLength
    let rest := input.drop 4
    match utf8Decode (rest.take msgLength) with
    | none => (.error .unicodeError, rest.drop msgLength)
    | some text =>
      match loads text with
      | .error f => (.error f, rest.drop msgLength)
      | .ok v => (.ok (some v), rest.drop msgLength)

/-- One action on the output stream. -/
inductive StreamOp where
  | write (bytes : List Nat)
  | flush

/-- `write_message`, up to the stream itself: serialize (always succeeds
for the host's response shapes), pack the length — `struct.pack('I', ·)`
raises beyond `2^32 - 1` — then write the length field, write the
payload, and flush. -/
def writeOps (m : Json) : Except Fault (List StreamOp) :=
  let encoded := utf8Encode (dumps m)
  if encoded.length < 4294967296 then
    .ok [.write (toLE4 encoded.length), .write encoded, .flush]
  else .error .packError

/-- The full frame `write_message` puts on the wire for `m`. -/
def frameBytes (m : Json) : List Nat :=
  let encoded := utf8Encode (dumps m)
  toLE4 encoded.length ++ encoded

/-- The environment a run of the host observes: which candidate paths
exist (`os.path.exists`), whether a launch command run succeeds
(`subprocess.run(['open', '-a', path, url], check=True)` not raising),
and whether the n-th `write_message` call's stream writes succeed. -/
structure Env where
  pathExists : List Char → Bool
  runOk : List Char → List Char → Bool
  writeOk : Nat → Bool

/-- The hard-coded candidate application paths of `handle_download`, in
probe order. -/
def appPaths : List (List Char) :=
  ["/Applications/SwiftFetch.app".data,
   ("/Users/devitripathy/Library/Developer/Xcode/DerivedData/" ++
     "SwiftFetch-hkguncbcnfxahpcsjswpmkdlbqjt/Build/Products/Debug/SwiftFetch.app").data]

/-- The body of `handle_download`: probe `appPaths` in order for the
first existing one; none found returns `False` before any launch; a
non-string `url` makes `subprocess.run` raise `TypeError` while building
the command (caught by the handler's `except`, no process spawned); else
the launch result decides.  First component: the returned boolean.
Second component: whether the launch command was actually invoked (the
observable side effect). -/
def handleDownloadCore (env : Env) (url : Json) : Bool × Bool :=
  match appPaths.find? env.pathExists with
  | none => (false, false)
  | some appPath =>
    match url with
    | .str s => (env.runOk appPath s, true)
    | _ => (false, false)

/-- `handle_download(url, filename)`: the `try`/`except` wrapper converts
every fault into `False`; `filename` is accepted and ignored. -/
def handle_download (env : Env) (url filename : Json) : Bool :=
  (handleDownloadCore env url).1

/-- `{'type': 'error', 'message': msg}`. -/
def errResp (msg : List Char) : Json :=
  .obj (.ofList [("type".data, .str "error".data), ("message".data, .str msg)])

/-- The `ping` response of the dispatcher. -/
def pongResp : Json :=
  .obj (.ofList [("type".data, .str "pong".data), ("status".data, .str "connected".data),
                 ("version".data, .str "1.0.0".data)])

/-- The `status` response of the dispatcher. -/
def statusResp : Json :=
  .obj (.ofList [("type".data, .str "status_response".data), ("connected".data, .bool true),
                 ("app_running".data, .bool true)])

/-- The `download` response of the dispatcher for extracted `url` and
`filename` fields. -/
def downloadResp (env : Env) (url filename : Json) : Json :=
  .obj (.ofList [("type".data, .str "download_response".data),
                 ("success".data, .bool (handle_download env url filename)),
                 ("url".data, url)])

/-- The dispatcher's `type` switch from `main`, after
`msg_type = message.get('type', '')`: Python `==` between a non-string
`msg_type` and the three string literals is `False`, so only the `.str`
arm can match them; the catch-all builds the f-string error message. -/
def respondTo (env : Env) (ms : JsonMembers) (msgType : Json) : Json :=
  match msgType with
  | .str s =>
    if s = "ping".data then pongResp
    else if s = "download".data then
      downloadResp env (ms.getD "url".data (.str [])) (ms.getD "filename".data (.str []))
    else if s = "status".data then statusResp
    else errResp ("Unknown message type: ".data ++ s)
  | other => errResp ("Unknown message type: ".data ++ pyStr other)

/-- One message's handling in `main` between the read and the write:
`message.get` raises `AttributeError` on every non-`dict` value, which
the loop's `except` turns into an error response; on a `dict`, classify
by `type` (absent defaults to `''`) and build the response. -/
def dispatch (env : Env) (message : Json) : Except Fault Json :=
  match message with
  | .obj ms => .ok (respondTo env ms (ms.getD "type".data (.str [])))
  | other => .error (.attrError (pyTypeName other))

/-- One `write_message` call against the output stream: serialization
and packing faults surface first, then the stream accepts or refuses the
n-th call as the environment dictates. -/
def writeAttempt (env : Env) (wc : Nat) (r : Json) : Except Fault Unit :=
  match writeOps r with
  | .error f => .error f
  | .ok _ => if env.writeOk wc then .ok () else .error .writeError

/-- The `except` block of the loop body: build
`{'type': 'error', 'message': str(e)}`, attempt to write it, and swallow
a failure of that write.  Returns the responses that actually reached the
stream (one or none). -/
def errorWriteOut (env : Env) (wc : Nat) (e : Fault) : List Json :=
  match writeAttempt env wc (errResp (describe e)) with
  | .ok _ => [errResp (describe e)]
  | .error _ => []

/-- Fuel-indexed model of the `while True` loop of `main`, returning the
successfully written responses in order.  `wc` counts `write_message`
calls (indexing `Env.writeOk`).  Per iteration: read (end-of-stream or a
falsy decoded message breaks the loop), dispatch, write the response;
any fault inside the iteration runs the `except` block (`errorWriteOut`)
and the loop continues with the remaining input.  Every non-final
iteration consumes at least one input byte, so `mainFrom` below always
supplies sufficient fuel. -/
def loopF (env : Env) : Nat → List Nat → Nat → List Json
  | 0, _, _ => []
  | f + 1, input, wc =>
    match readMessage input with
    | (.ok none, _) => []
    | (.ok (some message), rest) =>
      if message.truthy = false then []
      else
        match dispatch env message with
        | .ok response =>
          match writeAttempt env wc response with
          | .ok _ => response :: loopF env f rest (wc + 1)
          | .error e => errorWriteOut env (wc + 1) e ++ loopF env f rest (wc + 2)
        | .error e => errorWriteOut env wc e ++ loopF env f rest (wc + 1)
    | (.error e, rest) => errorWriteOut env wc e ++ loopF env f rest (wc + 1)

/-- The dispatcher loop started at write-attempt index `wc`. -/
def mainFrom (env : Env) (input : List Nat) (wc : Nat) : List Json :=
  loopF env (input.length + 1) input wc

/-- `main`: the dispatcher loop over the whole input stream, returning
the successfully written responses in order. -/
def mainLoop (env : Env) (input : List Nat) : List Json :=
  mainFrom env input 0

/-- Whether a decoded JSON value is an object (a Python `dict`). -/
def Json.isObj : Json → Bool
  | .obj _ => true
  | _ => false

/-- Whether a member list binds the given key. -/
def JsonMembers.hasKey : JsonMembers → List Char → Bool
  | .nil, _ => false
  | .cons k _ tl, key => decide (k = key) || tl.hasKey key

mutual
/-- Well-formedness of a JSON value as a Python object: object keys are
pairwise distinct (a Python `dict` cannot hold duplicates), recursively. -/
def Json.wf : Json → Bool
  | .null => true
  | .bool _ => true
  | .int _ => true
  | .str _ => true
  | .arr xs => xs.wfElems
  | .obj ms => ms.wfMembers

/-- Well-formedness of every element of a JSON list. -/
def JsonList.wfElems : JsonList → Bool
  | .nil => true
  | .cons x tl => x.wf && tl.wfElems

/-- Well-formedness of a member list: no duplicate keys, values
well-formed. -/
def JsonMembers.wfMembers : JsonMembers → Bool
  | .nil => true
  | .cons k v tl => !tl.hasKey k && v.wf && tl.wfMembers
end

/-- The bytes a sequence of stream operations puts on the wire. -/
def opsBytes : List StreamOp → List Nat
  | [] => []
  | .write bs :: tl => bs ++ opsBytes tl
  | .flush :: tl => opsBytes tl

/-- The first input character (if any) is not a decimal digit — the
condition under which the maximal-munch integer match stops exactly at a
rendered number's end. -/
def headNotDigit : List Char → Prop
  | [] => True
  | c :: _ => isDigit c = false

/-- The input does not continue a JSON number token: its first character
is no digit and cannot start the fraction/exponent part.  Holds for the
contexts a value ends in (`,`, `]`, `}`, whitespace, end of input). -/
def numDelim : List Char → Prop
  | [] => True
  | c :: _ => isDigit c = false ∧ c ≠ '.' ∧ c ≠ 'e' ∧ c ≠ 'E'

/-- The elements of a `JsonList` as an ordinary list. -/
def JsonList.toList : JsonList → List Json
  | .nil => []
  | .cons x tl => x :: tl.toList

/-- The members of a `JsonMembers` as an ordinary association list. -/
def JsonMembers.toPairs : JsonMembers → List (List Char × Json)
  | .nil => []
  | .cons k v tl => (k, v) :: tl.toPairs

mutual
/-- A recursion depth sufficient for `parseValF` to parse `dumps v`
(proved below); used to show the fuel `loads` supplies is enough. -/
def need : Json → Nat
  | .null => 1
  | .bool _ => 1
  | .int _ => 1
  | .str _ => 1
  | .arr .nil => 2
  | .arr (.cons x tl) => 2 + needElems (.cons x tl)
  | .obj .nil => 2
  | .obj (.cons k v tl) => 2 + needMembers (.cons k v tl)

/-- Depth sufficient for the array-element loop on a nonempty item list. -/
def needElems : JsonList → Nat
  | .nil => 0
  | .cons x .nil => 1 + need x
  | .cons x (.cons y tl) => 1 + max (need x) (needElems (.cons y tl))

/-- Depth sufficient for the object-member loop on a nonempty member
list. -/
def needMembers : JsonMembers → Nat
  | .nil => 0
  | .cons _ v .nil => 1 + need v
  | .cons _ v (.cons k2 v2 tl) => 1 + max (need v) (needMembers (.cons k2 v2 tl))
end

/-- A concrete environment: no candidate application path exists, every
launch fails, every write succeeds. -/
def env0 : Env :=
  { pathExists := fun _ => false, runOk := fun _ _ => false, writeOk := fun _ => true }

/-- The `{"type": "ping"}` message. -/
def pingMsg : Json := .obj (.ofList [("type".data, .str "ping".data)])

/-- `k` consecutive `{"type": "ping"}` frames on the wire. -/
def pingFrames : Nat → List Nat
  | 0 => []
  | k + 1 => frameBytes pingMsg ++ pingFrames k

/-! Infrastructure lemmas: characters and decimal rendering. -/

theorem toNat_ofNat_valid (n : Nat) (hv : n.isValidChar) : (Char.ofNat n).toNat = n := by
  simp [Char.ofNat, hv, Char.toNat, Char.ofNatAux, BitVec.ofNatLt, UInt32.toNat]

theorem toNat_ofNat_small (n : Nat) (h : n < 55296) : (Char.ofNat n).toNat = n :=
  toNat_ofNat_valid n (Or.inl h)

theorem char_ne_of_toNat_ne {c d : Char} (h : c.toNat ≠ d.toNat) : c ≠ d :=
  fun hc => h (hc ▸ rfl)

theorem isWs_toNat {c : Char} (h : isWs c = true) :
    c.toNat = 32 ∨ c.toNat = 9 ∨ c.toNat = 10 ∨ c.toNat = 13 := by
  simp only [isWs, Bool.or_eq_true, beq_iff_eq] at h
  rcases h with ((h | h) | h) | h <;> subst h <;> simp [Char.toNat]

theorem isDigit_iff (c : Char) : isDigit c = true ↔ 48 ≤ c.toNat ∧ c.toNat ≤ 57 := by
  simp [isDigit]

theorem isWs_false_of_digit {c : Char} (h : isDigit c = true) : isWs c = false := by
  rcases isDigit_iff c |>.mp h with ⟨h1, h2⟩
  cases hw : isWs c
  · rfl
  · rcases isWs_toNat hw with h' | h' | h' | h' <;> omega

theorem digitChar_toNat {d : Nat} (h : d < 10) : (digitChar d).toNat = 48 + d :=
  toNat_ofNat_small _ (by omega)

theorem isDigit_digitChar {d : Nat} (h : d < 10) : isDigit (digitChar d) = true := by
  rw [isDigit_iff, digitChar_toNat h]; omega

theorem skipWs_nil : skipWs [] = [] := rfl

theorem skipWs_cons_neg {c : Char} (tl : List Char) (h : isWs c = false) :
    skipWs (c :: tl) = c :: tl := by
  simp [skipWs, List.dropWhile_cons, h]

theorem skipWs_cons_pos {c : Char} (tl : List Char) (h : isWs c = true) :
    skipWs (c :: tl) = skipWs tl := by
  simp [skipWs, List.dropWhile_cons, h]

theorem natToCharsF_congr : ∀ n f g, n < f → n < g → natToCharsF f n = natToCharsF g n := by
  intro n
  induction n using Nat.strong_induction_on with
  | _ n ih =>
    intro f g hf hg
    match f, g with
    | f' + 1, g' + 1 =>
      show natToCharsF (f' + 1) n = natToCharsF (g' + 1) n
      simp only [natToCharsF]
      by_cases h10 : n < 10
      · simp [h10]
      · simp only [if_neg h10]
        have hlt : n / 10 < n := Nat.div_lt_self (by omega) (by omega)
        rw [ih (n / 10) hlt f' g' (by omega) (by omega)]

theorem natToChars_unfold (n : Nat) :
    natToChars n = if n < 10 then [digitChar n]
      else natToChars (n / 10) ++ [digitChar (n % 10)] := by
  show natToCharsF (n + 1) n = _
  simp only [natToCharsF]
  by_cases h10 : n < 10
  · simp [h10]
  · simp only [if_neg h10]
    have hlt : n / 10 < n := Nat.div_lt_self (by omega) (by omega)
    rw [natToCharsF_congr (n / 10) n (n / 10 + 1) (by omega) (by omega)]
    rfl

theorem natToChars_digits : ∀ n, ∀ c ∈ natToChars n, ∃ d, d < 10 ∧ c = digitChar d := by
  intro n
  induction n using Nat.strong_induction_on with
  | _ n ih =>
    intro c hc
    rw [natToChars_unfold] at hc
    by_cases h10 : n < 10
    · rw [if_pos h10] at hc
      simp only [List.mem_singleton] at hc
      exact ⟨n, h10, hc⟩
    · rw [if_neg h10] at hc
      rcases List.mem_append.mp hc with h | h
      · exact ih (n / 10) (Nat.div_lt_self (by omega) (by omega)) c h
      · simp only [List.mem_singleton] at h
        exact ⟨n % 10, Nat.mod_lt n (by omega), h⟩

theorem natToChars_head_pos (n : Nat) (hn : 1 ≤ n) :
    ∃ d tl, natToChars n = digitChar d :: tl ∧ 1 ≤ d ∧ d ≤ 9 := by
  induction n using Nat.strong_induction_on with
  | _ n ih =>
    rw [natToChars_unfold]
    by_cases h10 : n < 10
    · exact ⟨n, [], by rw [if_pos h10], hn, by omega⟩
    · rw [if_neg h10]
      have hlt : n / 10 < n := Nat.div_lt_self (by omega) (by omega)
      rcases ih (n / 10) hlt (by omega) with ⟨d, tl, heq, h1, h9⟩
      exact ⟨d, tl ++ [digitChar (n % 10)], by rw [heq]; rfl, h1, h9⟩

theorem natToChars_foldl : ∀ n acc, (natToChars n).foldl (fun a c => 10 * a + (c.toNat - 48)) acc
    = acc * 10 ^ (natToChars n).length + n := by
  intro n
  induction n using Nat.strong_induction_on with
  | _ n ih =>
    intro acc
    rw [natToChars_unfold]
    by_cases h10 : n < 10
    · rw [if_pos h10]
      simp [List.foldl, digitChar_toNat h10]
      omega
    · rw [if_neg h10]
      have hlt : n / 10 < n := Nat.div_lt_self (by omega) (by omega)
      rw [List.foldl_append, ih (n / 10) hlt acc]
      simp [List.length_append, digitChar_toNat (Nat.mod_lt n (show 0 < 10 by omega))]
      ring_nf
      omega

theorem takeWhile_append_stop {p : Char → Bool} :
    ∀ (l r : List Char), (∀ c ∈ l, p c = true) →
      (∀ c tl, r = c :: tl → p c = false) →
      (l ++ r).takeWhile p = l ∧ (l ++ r).dropWhile p = r := by
  intro l r hl hr
  induction l with
  | nil =>
    cases r with
    | nil => exact ⟨rfl, rfl⟩
    | cons c tl =>
      simp [List.takeWhile_cons, List.dropWhile_cons, hr c tl rfl]
  | cons c tl ih =>
    have hc : p c = true := hl c (by simp)
    have htl : ∀ x ∈ tl, p x = true := fun x hx => hl x (by simp [hx])
    rcases ih htl with ⟨h1, h2⟩
    simp [List.takeWhile_cons, List.dropWhile_cons, hc, h1, h2]

theorem isDigit_of_mem_natToChars {n : Nat} {c : Char} (h : c ∈ natToChars n) :
    isDigit c = true := by
  rcases natToChars_digits n c h with ⟨d, hd, rfl⟩
  exact isDigit_digitChar hd

theorem matchUInt_nat (n : Nat) (rest : List Char) (h : headNotDigit rest) :
    matchUInt (natToChars n ++ rest) = some (n, rest) := by
  have hrest : ∀ c tl, rest = c :: tl → isDigit c = false := by
    intro c tl hr
    rw [hr] at h
    exact h
  by_cases hn : n = 0
  · subst hn
    show matchUInt ('0' :: rest) = some (0, rest)
    simp [matchUInt]
  · rcases natToChars_head_pos n (by omega) with ⟨d, tl, heq, h1, h9⟩
    have htl : ∀ c ∈ tl, isDigit c = true := by
      intro c hc
      exact isDigit_of_mem_natToChars (n := n) (by rw [heq]; exact List.mem_cons_of_mem _ hc)
    rcases takeWhile_append_stop tl rest htl hrest with ⟨htw, hdw⟩
    have hd0 : digitChar d ≠ '0' := by
      apply char_ne_of_toNat_ne
      rw [digitChar_toNat (by omega)]
      show 48 + d ≠ 48
      omega
    have hdig : isDigit (digitChar d) = true := isDigit_digitChar (by omega)
    rw [heq, List.cons_append]
    simp only [matchUInt, if_neg hd0, hdig, if_pos]
    rw [htw, hdw]
    have := natToChars_foldl n 0
    rw [heq] at this
    simp only [List.foldl_cons] at this ⊢
    rw [this]
    simp

theorem matchInt_int (n : Int) (rest : List Char) (h : headNotDigit rest) :
    matchInt (intToChars n ++ rest) = some (n, rest) := by
  by_cases hn : n < 0
  · rw [intToChars, if_pos hn, List.cons_append]
    rw [show matchInt ('-' :: (natToChars n.natAbs ++ rest)) =
          (matchUInt (natToChars n.natAbs ++ rest)).map (fun nr => (-(nr.1 : Int), nr.2))
        from rfl]
    rw [matchUInt_nat n.natAbs rest h]
    simp only [Option.map_some']
    congr 2
    omega
  · rw [intToChars, if_neg hn]
    by_cases h0 : n.toNat = 0
    · rw [h0]
      show matchInt ('0' :: rest) = some (n, rest)
      rw [show matchInt ('0' :: rest) =
            (matchUInt ('0' :: rest)).map (fun nr => ((nr.1 : Int), nr.2)) from rfl]
      rw [show ('0' :: rest) = natToChars 0 ++ rest from rfl, matchUInt_nat 0 rest h]
      simp only [Option.map_some']
      congr 2
      omega
    · rcases natToChars_head_pos n.toNat (by omega) with ⟨d, tl, heq, h1, h9⟩
      rw [heq, List.cons_append]
      have hne : digitChar d ≠ '-' := by
        apply char_ne_of_toNat_ne
        rw [digitChar_toNat (by omega)]
        show 48 + d ≠ 45
        omega
      rw [show matchInt (digitChar d :: (tl ++ rest)) =
            if digitChar d = '-' then
              (matchUInt (tl ++ rest)).map (fun nr => (-(nr.1 : Int), nr.2))
            else (matchUInt (digitChar d :: (tl ++ rest))).map (fun nr => ((nr.1 : Int), nr.2))
          from rfl]
      rw [if_neg hne, ← List.cons_append, ← heq, matchUInt_nat n.toNat rest h]
      simp only [Option.map_some']
      congr 2
      omega

theorem fracExp_false_of_delim (rest : List Char) (h : numDelim rest) :
    fracExpPresent rest = false := by
  cases rest with
  | nil => rfl
  | cons c tl =>
    rcases h with ⟨_, hdot, he, hE⟩
    have hor : ¬(c = 'e' ∨ c = 'E') := by
      rintro (h | h) <;> [exact he h; exact hE h]
    simp only [fracExpPresent, if_neg hdot, if_neg hor]

theorem headNotDigit_of_delim {rest : List Char} (h : numDelim rest) : headNotDigit rest := by
  cases rest with
  | nil => trivial
  | cons c tl => exact h.1

theorem char_eq_of_toNat_eq {c d : Char} (h : c.toNat = d.toNat) : c = d :=
  Char.ext (UInt32.ext h)

theorem char_not_surrogate (c : Char) : ¬(55296 ≤ c.toNat ∧ c.toNat ≤ 56319) := by
  have hv := c.valid
  have he : c.toNat = c.val.toNat := rfl
  rcases hv with h | ⟨h1, h2⟩ <;> rw [he] <;> omega

theorem char_not_low_surrogate (c : Char) : ¬(56320 ≤ c.toNat ∧ c.toNat ≤ 57343) := by
  have hv := c.valid
  have he : c.toNat = c.val.toNat := rfl
  rcases hv with h | ⟨h1, h2⟩ <;> rw [he] <;> omega

theorem char_toNat_lt (c : Char) : c.toNat < 1114112 := by
  have hv := c.valid
  have he : c.toNat = c.val.toNat := rfl
  rcases hv with h | ⟨h1, h2⟩ <;> rw [he] <;> omega

theorem hexVal_hexDigitChar {d : Nat} (h : d < 16) : hexVal (hexDigitChar d) = some d := by
  unfold hexVal hexDigitChar
  by_cases h10 : d < 10
  · rw [if_pos h10, toNat_ofNat_small _ (by omega), if_pos (by omega)]
    congr 1
    omega
  · rw [if_neg h10, toNat_ofNat_small _ (by omega), if_neg (by omega), if_pos (by omega)]
    congr 1
    omega

theorem hex4_toHex4 (n : Nat) (h : n < 65536) (tail : List Char) :
    hex4 (toHex4 n ++ tail) = some n := by
  show (match hexVal (hexDigitChar (n / 4096 % 16)), hexVal (hexDigitChar (n / 256 % 16)),
      hexVal (hexDigitChar (n / 16 % 16)), hexVal (hexDigitChar (n % 16)) with
    | some d1, some d2, some d3, some d4 => some (4096 * d1 + 256 * d2 + 16 * d3 + d4)
    | _, _, _, _ => none) = some n
  rw [hexVal_hexDigitChar (Nat.mod_lt _ (by omega)),
      hexVal_hexDigitChar (Nat.mod_lt _ (by omega)),
      hexVal_hexDigitChar (Nat.mod_lt _ (by omega)),
      hexVal_hexDigitChar (Nat.mod_lt _ (by omega))]
  show some (4096 * (n / 4096 % 16) + 256 * (n / 256 % 16) + 16 * (n / 16 % 16) + n % 16)
    = some n
  congr 1
  omega

theorem toHex4_drop (n : Nat) (tail : List Char) : (toHex4 n ++ tail).drop 4 = tail := rfl

theorem scanStringF_congr : ∀ f g s, s.length < f → s.length < g →
    scanStringF f s = scanStringF g s := by
  intro f
  induction f with
  | zero => intro g s h _; omega
  | succ f ih =>
    intro g s hf hg
    match g, s with
    | g' + 1, [] => rfl
    | g' + 1, c :: cs =>
      have hlen : cs.length + 1 = (c :: cs).length := rfl
      have hcs : cs.length < f := by omega
      have hcs' : cs.length < g' := by omega
      show scanStringF (f + 1) (c :: cs) = scanStringF (g' + 1) (c :: cs)
      simp only [scanStringF]
      by_cases h1 : c = '"'
      · simp [h1]
      · simp only [if_neg h1]
        by_cases h2 : c = '\\'
        · simp only [if_pos h2]
          cases cs with
          | nil => rfl
          | cons e cs2 =>
            have hcs2 : cs2.length < f := by
              simp at hcs
              omega
            have hcs2' : cs2.length < g' := by
              simp at hcs'
              omega
            by_cases h3 : e = 'u'
            · simp only [if_pos h3]
              cases hh : hex4 cs2 with
              | none => rfl
              | some u =>
                by_cases h4 : 55296 ≤ u ∧ u ≤ 56319
                · simp only [if_pos h4]
                  cases hd : cs2.drop 4 with
                  | nil => rfl
                  | cons b tl =>
                    cases tl with
                    | nil => rfl
                    | cons e2 cs4 =>
                      by_cases h5 : b = '\\' ∧ e2 = 'u'
                      · simp only [if_pos h5]
                        cases hh2 : hex4 cs4 with
                        | none => rfl
                        | some u2 =>
                          by_cases h6 : 56320 ≤ u2 ∧ u2 ≤ 57343
                          · simp only [if_pos h6]
                            have hd4 : cs2.length - 4 = cs4.length + 2 := by
                              have := congrArg List.length hd
                              simpa using this
                            rw [ih g' (cs4.drop 4)
                              (by simp only [List.length_drop]; omega)
                              (by simp only [List.length_drop]; omega)]
                          · simp only [if_neg h6]
                      · simp only [if_neg h5]
                · simp only [if_neg h4]
                  by_cases h7 : 56320 ≤ u ∧ u ≤ 57343
                  · simp only [if_pos h7]
                  · simp only [if_neg h7]
                    rw [ih g' (cs2.drop 4)
                      (by simp only [List.length_drop]; omega)
                      (by simp only [List.length_drop]; omega)]
            · simp only [if_neg h3]
              cases hesc : escTable e with
              | none => rfl
              | some c' => rw [ih g' cs2 hcs2 hcs2']
        · simp only [if_neg h2]
          by_cases h8 : c.toNat < 32
          · simp only [if_pos h8]
          · simp only [if_neg h8]
            rw [ih g' cs hcs hcs']

theorem scanString_fuel {f : Nat} (s : List Char) (h : s.length < f) :
    scanStringF f s = scanString s :=
  scanStringF_congr f (s.length + 1) s h (by omega)

theorem scanStringF_step_plain {c : Char} (hq : c ≠ '"') (hb : c ≠ '\\')
    (hc : ¬c.toNat < 32) (f : Nat) (X : List Char) :
    scanStringF (f + 1) (c :: X) = (scanStringF f X).map (fun br => (c :: br.1, br.2)) := by
  simp only [scanStringF, if_neg hq, if_neg hb, if_neg hc]

theorem scanStringF_step_esc {e c' : Char} (he : e ≠ 'u') (ht : escTable e = some c')
    (f : Nat) (X : List Char) :
    scanStringF (f + 1) ('\\' :: e :: X) = (scanStringF f X).map (fun br => (c' :: br.1, br.2)) := by
  have hq : ('\\' : Char) ≠ '"' := by decide
  simp only [scanStringF, if_neg hq, if_pos rfl, if_neg he, ht]
  simp

theorem scanStringF_step_u {u : Nat} (hu : u < 65536) (hs1 : ¬(55296 ≤ u ∧ u ≤ 56319))
    (hs2 : ¬(56320 ≤ u ∧ u ≤ 57343)) (f : Nat) (X : List Char) :
    scanStringF (f + 1) ('\\' :: 'u' :: (toHex4 u ++ X)) =
      (scanStringF f X).map (fun br => (Char.ofNat u :: br.1, br.2)) := by
  have hq : ('\\' : Char) ≠ '"' := by decide
  simp only [scanStringF, if_neg hq, if_pos rfl, hex4_toHex4 u hu X, toHex4_drop,
    if_neg hs1, if_neg hs2]
  simp

theorem scanStringF_step_pair {u u2 : Nat} (hu : 55296 ≤ u ∧ u ≤ 56319)
    (hu2 : 56320 ≤ u2 ∧ u2 ≤ 57343) (f : Nat) (X : List Char) :
    scanStringF (f + 1) ('\\' :: 'u' :: (toHex4 u ++ ('\\' :: 'u' :: (toHex4 u2 ++ X)))) =
      (scanStringF f X).map (fun br =>
        (Char.ofNat (65536 + (u - 55296) * 1024 + (u2 - 56320)) :: br.1, br.2)) := by
  have hq : ('\\' : Char) ≠ '"' := by decide
  simp only [scanStringF, if_neg hq, if_pos rfl, hex4_toHex4 u (by omega) _, toHex4_drop,
    if_pos hu, hex4_toHex4 u2 (by omega) X, if_pos hu2]
  simp

theorem scanString_escape : ∀ (s rest : List Char),
    scanString (escapeChars s ++ '"' :: rest) = .ok (s, rest) := by
  intro s
  induction s with
  | nil =>
    intro rest
    show scanStringF ((('"' :: rest).length) + 1) ('"' :: rest) = .ok ([], rest)
    simp [scanStringF]
  | cons c s' ih =>
    intro rest
    have ihf : ∀ f, (escapeChars s' ++ '"' :: rest).length < f →
        scanStringF f (escapeChars s' ++ '"' :: rest) = .ok (s', rest) :=
      fun f hf => (scanString_fuel _ hf).trans (ih rest)
    show scanString (escapeChar c ++ escapeChars s' ++ '"' :: rest) = _
    rw [List.append_assoc]
    generalize hX : escapeChars s' ++ '"' :: rest = X at ihf ⊢
    by_cases h1 : c = '\\'
    · subst h1
      rw [show escapeChar '\\' = ['\\', '\\'] from rfl]
      show scanStringF ((('\\' :: '\\' :: X).length) + 1) ('\\' :: '\\' :: X) = _
      rw [scanStringF_step_esc (by decide) (show escTable '\\' = some '\\' from rfl),
        ihf _ (by simp only [List.length_cons, List.length_append, List.length_nil, toHex4]; omega)]
      rfl
    · by_cases h2 : c = '"'
      · subst h2
        rw [show escapeChar '"' = ['\\', '"'] from rfl]
        show scanStringF ((('\\' :: '"' :: X).length) + 1) ('\\' :: '"' :: X) = _
        rw [scanStringF_step_esc (by decide) (show escTable '"' = some '"' from rfl),
          ihf _ (by simp only [List.length_cons, List.length_append, List.length_nil, toHex4]; omega)]
        rfl
      · by_cases h8 : c.toNat = 8
        · rw [show escapeChar c = ['\\', 'b'] by
            unfold escapeChar
            rw [if_neg h1, if_neg h2, if_pos h8]]
          show scanStringF ((('\\' :: 'b' :: X).length) + 1) ('\\' :: 'b' :: X) = _
          rw [scanStringF_step_esc (by decide) (show escTable 'b' = some (Char.ofNat 8) from rfl),
            ihf _ (by simp only [List.length_cons, List.length_append, List.length_nil, toHex4]; omega)]
          have : Char.ofNat 8 = c := char_eq_of_toNat_eq (by rw [toNat_ofNat_small 8 (by omega), h8])
          rw [this]
          rfl
        · by_cases h9 : c.toNat = 9
          · rw [show escapeChar c = ['\\', 't'] by
              unfold escapeChar
              rw [if_neg h1, if_neg h2, if_neg h8, if_pos h9]]
            show scanStringF ((('\\' :: 't' :: X).length) + 1) ('\\' :: 't' :: X) = _
            rw [scanStringF_step_esc (by decide)
                (show escTable 't' = some (Char.ofNat 9) from rfl),
              ihf _ (by simp only [List.length_cons, List.length_append, List.length_nil, toHex4]; omega)]
            have : Char.ofNat 9 = c :=
              char_eq_of_toNat_eq (by rw [toNat_ofNat_small 9 (by omega), h9])
            rw [this]
            rfl
          · by_cases h10 : c.toNat = 10
            · rw [show escapeChar c = ['\\', 'n'] by
                unfold escapeChar
                rw [if_neg h1, if_neg h2, if_neg h8, if_neg h9, if_pos h10]]
              show scanStringF ((('\\' :: 'n' :: X).length) + 1) ('\\' :: 'n' :: X) = _
              rw [scanStringF_step_esc (by decide)
                  (show escTable 'n' = some (Char.ofNat 10) from rfl),
                ihf _ (by simp only [List.length_cons, List.length_append, List.length_nil, toHex4]; omega)]
              have : Char.ofNat 10 = c :=
                char_eq_of_toNat_eq (by rw [toNat_ofNat_small 10 (by omega), h10])
              rw [this]
              rfl
            · by_cases h12 : c.toNat = 12
              · rw [show escapeChar c = ['\\', 'f'] by
                  unfold escapeChar
                  rw [if_neg h1, if_neg h2, if_neg h8, if_neg h9, if_neg h10, if_pos h12]]
                show scanStringF ((('\\' :: 'f' :: X).length) + 1) ('\\' :: 'f' :: X) = _
                rw [scanStringF_step_esc (by decide)
                    (show escTable 'f' = some (Char.ofNat 12) from rfl),
                  ihf _ (by simp only [List.length_cons, List.length_append, List.length_nil, toHex4]; omega)]
                have : Char.ofNat 12 = c :=
                  char_eq_of_toNat_eq (by rw [toNat_ofNat_small 12 (by omega), h12])
                rw [this]
                rfl
              · by_cases h13 : c.toNat = 13
                · rw [show escapeChar c = ['\\', 'r'] by
                    unfold escapeChar
                    rw [if_neg h1, if_neg h2, if_neg h8, if_neg h9, if_neg h10, if_neg h12,
                      if_pos h13]]
                  show scanStringF ((('\\' :: 'r' :: X).length) + 1) ('\\' :: 'r' :: X) = _
                  rw [scanStringF_step_esc (by decide)
                      (show escTable 'r' = some (Char.ofNat 13) from rfl),
                    ihf _ (by simp only [List.length_cons, List.length_append, List.length_nil, toHex4]; omega)]
                  have : Char.ofNat 13 = c :=
                    char_eq_of_toNat_eq (by rw [toNat_ofNat_small 13 (by omega), h13])
                  rw [this]
                  rfl
                · by_cases hout : c.toNat < 32 ∨ 126 < c.toNat
                  · by_cases hbmp : c.toNat < 65536
                    · rw [show escapeChar c = '\\' :: 'u' :: toHex4 c.toNat by
                        unfold escapeChar
                        rw [if_neg h1, if_neg h2, if_neg h8, if_neg h9, if_neg h10, if_neg h12,
                          if_neg h13, if_pos hout, if_pos hbmp]]
                      rw [List.cons_append, List.cons_append]
                      show scanStringF
                        ((('\\' :: 'u' :: (toHex4 c.toNat ++ X)).length) + 1)
                        ('\\' :: 'u' :: (toHex4 c.toNat ++ X)) = _
                      rw [scanStringF_step_u hbmp (char_not_surrogate c)
                          (char_not_low_surrogate c) _ X,
                        ihf _ (by simp only [List.length_cons, List.length_append, List.length_nil, toHex4]; omega)]
                      rw [Char.ofNat_toNat]
                      rfl
                    · rw [show escapeChar c =
                          ('\\' :: 'u' :: toHex4 (55296 + (c.toNat - 65536) / 1024)) ++
                            ('\\' :: 'u' :: toHex4 (56320 + (c.toNat - 65536) % 1024)) by
                        unfold escapeChar
                        rw [if_neg h1, if_neg h2, if_neg h8, if_neg h9, if_neg h10, if_neg h12,
                          if_neg h13, if_pos hout, if_neg hbmp]]
                      have hlt := char_toNat_lt c
                      have hq : (c.toNat - 65536) / 1024 < 1024 := by omega
                      simp only [List.cons_append, List.append_assoc]
                      show scanStringF _
                        ('\\' :: 'u' :: (toHex4 (55296 + (c.toNat - 65536) / 1024) ++
                          ('\\' :: 'u' :: (toHex4 (56320 + (c.toNat - 65536) % 1024) ++ X)))) = _
                      have hm : (c.toNat - 65536) % 1024 < 1024 :=
                        Nat.mod_lt _ (by omega)
                      rw [scanStringF_step_pair (by omega) (by omega) _ X,
                        ihf _ (by simp only [List.length_cons, List.length_append, List.length_nil, toHex4]; omega)]
                      have : Char.ofNat (65536 + (55296 + (c.toNat - 65536) / 1024 - 55296) * 1024 +
                          (56320 + (c.toNat - 65536) % 1024 - 56320)) = c := by
                        have harith : 65536 + (55296 + (c.toNat - 65536) / 1024 - 55296) * 1024 +
                            (56320 + (c.toNat - 65536) % 1024 - 56320) = c.toNat := by
                          have hdm := Nat.div_add_mod (c.toNat - 65536) 1024
                          omega
                        rw [harith, Char.ofNat_toNat]
                      rw [this]
                      rfl
                  · rw [show escapeChar c = [c] by
                      unfold escapeChar
                      rw [if_neg h1, if_neg h2, if_neg h8, if_neg h9, if_neg h10, if_neg h12,
                        if_neg h13, if_neg hout]]
                    show scanStringF (((c :: X).length) + 1) (c :: X) = _
                    rw [scanStringF_step_plain h2 h1 (by omega) _ X, ihf _ (by simp only [List.length_cons, List.length_append, List.length_nil, toHex4]; omega)]
                    rfl

theorem need_pos : ∀ v : Json, 1 ≤ need v := by
  intro v
  cases v with
  | null => simp [need]
  | bool b => simp [need]
  | int n => simp [need]
  | str s => simp [need]
  | arr l => cases l <;> simp [need] <;> omega
  | obj m => cases m <;> simp [need] <;> omega

theorem needElems_pos (x : Json) (tl : JsonList) : 1 ≤ needElems (.cons x tl) := by
  cases tl <;> simp [needElems]

theorem needMembers_pos (k : List Char) (v : Json) (tl : JsonMembers) :
    1 ≤ needMembers (.cons k v tl) := by
  cases tl <;> simp [needMembers]

theorem ofList_toList : ∀ l : JsonList, JsonList.ofList l.toList = l
  | .nil => rfl
  | .cons x tl => by
    show JsonList.cons x (JsonList.ofList tl.toList) = JsonList.cons x tl
    rw [ofList_toList tl]

theorem ofPairs_toPairs : ∀ m : JsonMembers, JsonMembers.ofList m.toPairs = m
  | .nil => rfl
  | .cons k v tl => by
    show JsonMembers.cons k v (JsonMembers.ofList tl.toPairs) = JsonMembers.cons k v tl
    rw [ofPairs_toPairs tl]

theorem intToChars_head (n : Int) : ∃ c tl, intToChars n = c :: tl ∧
    (c = '-' ∨ ∃ d, d < 10 ∧ c = digitChar d) := by
  unfold intToChars
  by_cases hn : n < 0
  · exact ⟨'-', _, by rw [if_pos hn], Or.inl rfl⟩
  · rw [if_neg hn]
    by_cases h0 : n.toNat = 0
    · rw [h0]
      exact ⟨digitChar 0, [], rfl, Or.inr ⟨0, by omega, rfl⟩⟩
    · rcases natToChars_head_pos n.toNat (by omega) with ⟨d, tl, heq, h1, h9⟩
      exact ⟨digitChar d, tl, heq, Or.inr ⟨d, by omega, rfl⟩⟩

theorem numHead_facts {c : Char} (h : c = '-' ∨ ∃ d, d < 10 ∧ c = digitChar d) :
    isWs c = false ∧ c ≠ '"' ∧ c ≠ '{' ∧ c ≠ '[' ∧ c ≠ ']' ∧ c ≠ '}' ∧
      c ≠ 'n' ∧ c ≠ 't' ∧ c ≠ 'f' := by
  rcases h with rfl | ⟨d, hd, rfl⟩
  · refine ⟨by decide, by decide, by decide, by decide, by decide, by decide,
      by decide, by decide, by decide⟩
  · have ht := digitChar_toNat hd
    have hdig := isDigit_digitChar hd
    refine ⟨isWs_false_of_digit hdig, ?_, ?_, ?_, ?_, ?_, ?_, ?_, ?_⟩
    · apply char_ne_of_toNat_ne
      rw [ht]
      show 48 + d ≠ 34
      omega
    · apply char_ne_of_toNat_ne
      rw [ht]
      show 48 + d ≠ 123
      omega
    · apply char_ne_of_toNat_ne
      rw [ht]
      show 48 + d ≠ 91
      omega
    · apply char_ne_of_toNat_ne
      rw [ht]
      show 48 + d ≠ 93
      omega
    · apply char_ne_of_toNat_ne
      rw [ht]
      show 48 + d ≠ 125
      omega
    · apply char_ne_of_toNat_ne
      rw [ht]
      show 48 + d ≠ 110
      omega
    · apply char_ne_of_toNat_ne
      rw [ht]
      show 48 + d ≠ 116
      omega
    · apply char_ne_of_toNat_ne
      rw [ht]
      show 48 + d ≠ 102
      omega

theorem dumps_cons (v : Json) : ∃ c tl, dumps v = c :: tl ∧
    isWs c = false ∧ c ≠ ']' ∧ c ≠ '}' := by
  cases v with
  | int n =>
    rcases intToChars_head n with ⟨c, tl, heq, hor⟩
    rcases numHead_facts hor with ⟨hws, _, _, _, hrb, hrc, _, _, _⟩
    exact ⟨c, tl, heq, hws, hrb, hrc⟩
  | null =>
    refine ⟨'n', _, rfl, ?_, ?_, ?_⟩ <;> decide
  | bool b =>
    cases b with
    | false => refine ⟨'f', _, rfl, ?_, ?_, ?_⟩ <;> decide
    | true => refine ⟨'t', _, rfl, ?_, ?_, ?_⟩ <;> decide
  | str s =>
    refine ⟨'"', _, rfl, ?_, ?_, ?_⟩ <;> decide
  | arr l =>
    cases l with
    | nil => refine ⟨'[', _, rfl, ?_, ?_, ?_⟩ <;> decide
    | cons x tl => refine ⟨'[', _, rfl, ?_, ?_, ?_⟩ <;> decide
  | obj m =>
    cases m with
    | nil => refine ⟨'{', _, rfl, ?_, ?_, ?_⟩ <;> decide
    | cons k v tl => refine ⟨'{', _, rfl, ?_, ?_, ?_⟩ <;> decide

theorem skipWs_dumps (v : Json) (r : List Char) : skipWs (dumps v ++ r) = dumps v ++ r := by
  rcases dumps_cons v with ⟨c, tl, heq, hws, _, _⟩
  rw [heq, List.cons_append, skipWs_cons_neg _ hws]

theorem numDelim_arrTail (tl : JsonList) (rest : List Char) :
    numDelim (dumpsArrTail tl ++ ']' :: rest) := by
  cases tl with
  | nil => exact ⟨by decide, by decide, by decide, by decide⟩
  | cons y tl2 => exact ⟨by decide, by decide, by decide, by decide⟩

theorem numDelim_objTail (tl : JsonMembers) (rest : List Char) :
    numDelim (dumpsObjTail tl ++ '}' :: rest) := by
  cases tl with
  | nil => exact ⟨by decide, by decide, by decide, by decide⟩
  | cons k v tl2 => exact ⟨by decide, by decide, by decide, by decide⟩

theorem dictInsert_append_of_notMem :
    ∀ (acc : List (List Char × Json)) (k : List Char) (v : Json),
      (∀ kv ∈ acc, kv.1 ≠ k) → dictInsert acc k v = acc ++ [(k, v)] := by
  intro acc k v h
  induction acc with
  | nil => rfl
  | cons kv tl ih =>
    have hk : kv.1 ≠ k := h kv (by simp)
    show dictInsert (kv :: tl) k v = kv :: tl ++ [(k, v)]
    rcases kv with ⟨k', v'⟩
    show (if k' = k then (k', v) :: tl else (k', v') :: dictInsert tl k v) = _
    rw [if_neg hk, ih (fun kv2 h2 => h kv2 (by simp [h2]))]
    rfl

theorem foldl_dictInsert :
    ∀ (ps acc : List (List Char × Json)),
      (acc ++ ps).Pairwise (fun a b => a.1 ≠ b.1) →
      ps.foldl (fun acc2 kv => dictInsert acc2 kv.1 kv.2) acc = acc ++ ps := by
  intro ps
  induction ps with
  | nil => intro acc _; simp
  | cons kv tl ih =>
    intro acc h
    rcases kv with ⟨k, v⟩
    have hnot : ∀ kv2 ∈ acc, kv2.1 ≠ k := by
      intro kv2 h2
      rcases List.pairwise_append.mp h with ⟨_, _, hcross⟩
      exact hcross kv2 h2 (k, v) (by simp)
    show List.foldl _ (dictInsert acc k v) tl = _
    rw [dictInsert_append_of_notMem acc k v hnot, ih (acc ++ [(k, v)]) (by simpa using h)]
    simp

theorem dictFromPairs_of_nodup (ps : List (List Char × Json))
    (h : ps.Pairwise (fun a b => a.1 ≠ b.1)) : dictFromPairs ps = ps := by
  have := foldl_dictInsert ps [] (by simpa using h)
  simpa [dictFromPairs] using this

theorem hasKey_toPairs : ∀ (ms : JsonMembers) (key : List Char),
    ms.hasKey key = false → ∀ kv ∈ ms.toPairs, kv.1 ≠ key
  | .nil, _, _ => by intro kv h; simp [JsonMembers.toPairs] at h
  | .cons k v tl, key, h => by
    intro kv hm
    have hstep : (decide (k = key) || tl.hasKey key) = false := h
    simp only [Bool.or_eq_false_iff, decide_eq_false_iff_not] at hstep
    rcases hstep with ⟨hk, htl⟩
    rcases List.mem_cons.mp hm with hm2 | hm2
    · simp [hm2, hk]
    · exact hasKey_toPairs tl key htl kv hm2

theorem wfMembers_nodup : ∀ ms : JsonMembers, ms.wfMembers = true →
    (ms.toPairs).Pairwise (fun a b => a.1 ≠ b.1)
  | .nil, _ => by simp [JsonMembers.toPairs]
  | .cons k v tl, h => by
    have hstep : (!tl.hasKey k && v.wf && tl.wfMembers) = true := h
    simp only [Bool.and_eq_true, Bool.not_eq_true'] at hstep
    rcases hstep with ⟨⟨hkey, _⟩, htl⟩
    show ((k, v) :: tl.toPairs).Pairwise _
    refine List.Pairwise.cons ?_ (wfMembers_nodup tl htl)
    intro kv hm
    exact Ne.symm (hasKey_toPairs tl k hkey kv hm)

theorem parseValF_str_step (f : Nat) (Z : List Char) :
    parseValF (f + 1) ('"' :: Z) = (scanString Z).map (fun br => (Json.str br.1, br.2)) := by
  simp [parseValF]

theorem parseValF_arr_step (f : Nat) (Z : List Char) :
    parseValF (f + 1) ('[' :: Z) = parseArrF f Z := by
  simp [parseValF]

theorem parseValF_obj_step (f : Nat) (Z : List Char) :
    parseValF (f + 1) ('{' :: Z) = parseObjF f Z := by
  simp [parseValF]

theorem parseArrF_step {c : Char} (hws : isWs c = false) (hrb : c ≠ ']') (f : Nat)
    (Z : List Char) : parseArrF (f + 1) (c :: Z) = parseArrLoopF f [] (c :: Z) := by
  simp only [parseArrF]
  rw [skipWs_cons_neg _ hws]
  simp [hrb]

theorem parseObjF_step_quote (f : Nat) (Z : List Char) :
    parseObjF (f + 1) ('"' :: Z) = parseObjLoopF f [] Z := by
  simp only [parseObjF]
  rw [skipWs_cons_neg _ (by decide)]
  simp

theorem parseArrLoopF_ok {f : Nat} {s : List Char} {v : Json} {r : List Char}
    (acc : List Json) (h : parseValF f s = .ok (v, r)) :
    parseArrLoopF (f + 1) acc s =
      (match skipWs r with
      | [] => Except.error (.err "Expecting ',' delimiter".data [])
      | c :: r2 =>
        if c = ']' then .ok (Json.arr (JsonList.ofList (acc ++ [v])), r2)
        else if c = ',' then parseArrLoopF f (acc ++ [v]) (skipWs r2)
        else Except.error (.err "Expecting ',' delimiter".data (c :: r2))) := by
  simp only [parseArrLoopF, h]

theorem parseObjLoopF_step {f : Nat} (acc : List (List Char × Json)) {s : List Char}
    {k : List Char} {Z : List Char} {v : Json} {r5 : List Char}
    (hks : scanString s = .ok (k, ':' :: ' ' :: Z))
    (hsw : skipWs Z = Z)
    (hval : parseValF f Z = .ok (v, r5)) :
    parseObjLoopF (f + 1) acc s =
      (match skipWs r5 with
      | [] => Except.error (.err "Expecting ',' delimiter".data [])
      | d :: r7 =>
        if d = '}' then
          .ok (Json.obj (JsonMembers.ofList (dictFromPairs (acc ++ [(k, v)]))), r7)
        else if d = ',' then
          match skipWs r7 with
          | [] =>
            Except.error (.err "Expecting property name enclosed in double quotes".data [])
          | q :: r8 =>
            if q = '"' then parseObjLoopF f (acc ++ [(k, v)]) r8
            else Except.error
              (.err "Expecting property name enclosed in double quotes".data (q :: r8))
        else Except.error (.err "Expecting ',' delimiter".data (d :: r7))) := by
  simp only [parseObjLoopF, hks]
  rw [skipWs_cons_neg _ (by decide)]
  simp only [if_pos rfl]
  rw [skipWs_cons_pos _ (by decide), hsw, hval]
  simp

theorem parse_dumps : ∀ f : Nat,
    (∀ (v : Json) (rest : List Char), need v ≤ f → numDelim rest → v.wf = true →
      parseValF f (dumps v ++ rest) = .ok (v, rest)) ∧
    (∀ (x : Json) (tl : JsonList) (acc : List Json) (rest : List Char),
      needElems (.cons x tl) ≤ f → (JsonList.cons x tl).wfElems = true →
      parseArrLoopF f acc (dumps x ++ (dumpsArrTail tl ++ ']' :: rest)) =
        .ok (.arr (JsonList.ofList (acc ++ x :: tl.toList)), rest)) ∧
    (∀ (k : List Char) (v : Json) (tl : JsonMembers) (acc : List (List Char × Json))
        (rest : List Char),
      needMembers (.cons k v tl) ≤ f → (JsonMembers.cons k v tl).wfMembers = true →
      parseObjLoopF f acc
        (escapeChars k ++ '"' :: ':' :: ' ' :: (dumps v ++ (dumpsObjTail tl ++ '}' :: rest))) =
        .ok (.obj (JsonMembers.ofList (dictFromPairs (acc ++ (k, v) :: tl.toPairs))), rest)) := by
  intro f
  induction f using Nat.strong_induction_on with
  | _ f ih =>
    refine ⟨?_, ?_, ?_⟩
    · -- values
      intro v rest hneed hdelim hwf
      have h1 := need_pos v
      cases f with
      | zero => omega
      | succ f' =>
        cases v with
        | null =>
          show parseValF (f' + 1) ('n' :: 'u' :: 'l' :: 'l' :: rest) = .ok (Json.null, rest)
          simp [parseValF, leadsWith]
        | bool b =>
          cases b with
          | true =>
            show parseValF (f' + 1) ('t' :: 'r' :: 'u' :: 'e' :: rest)
              = .ok (Json.bool true, rest)
            simp [parseValF, leadsWith]
          | false =>
            show parseValF (f' + 1) ('f' :: 'a' :: 'l' :: 's' :: 'e' :: rest)
              = .ok (Json.bool false, rest)
            simp [parseValF, leadsWith]
        | int n =>
          rcases intToChars_head n with ⟨c, ctl, hceq, hor⟩
          rcases numHead_facts hor with ⟨hws, hq, hlb, hlbr, _, _, hn, ht, hf⟩
          show parseValF (f' + 1) (intToChars n ++ rest) = .ok (Json.int n, rest)
          rw [hceq, List.cons_append]
          have hLn : leadsWith "null".data (c :: (ctl ++ rest)) = false := by
            show (decide (c = 'n') && _) = false
            simp [hn]
          have hLt : leadsWith "true".data (c :: (ctl ++ rest)) = false := by
            show (decide (c = 't') && _) = false
            simp [ht]
          have hLf : leadsWith "false".data (c :: (ctl ++ rest)) = false := by
            show (decide (c = 'f') && _) = false
            simp [hf]
          simp only [parseValF]
          rw [if_neg hq, if_neg hlb, if_neg hlbr,
            if_neg (show ¬leadsWith "null".data (c :: (ctl ++ rest)) = true by simp [hLn]),
            if_neg (show ¬leadsWith "true".data (c :: (ctl ++ rest)) = true by simp [hLt]),
            if_neg (show ¬leadsWith "false".data (c :: (ctl ++ rest)) = true by simp [hLf]),
            ← List.cons_append, ← hceq,
            matchInt_int n rest (headNotDigit_of_delim hdelim)]
          simp [fracExp_false_of_delim rest hdelim]
        | str s =>
          have hsh : dumps (Json.str s) ++ rest = '"' :: (escapeChars s ++ '"' :: rest) := by
            show ('"' :: (escapeChars s ++ ['"'])) ++ rest = _
            simp
          rw [hsh, parseValF_str_step, scanString_escape s rest]
          rfl
        | arr l =>
          cases l with
          | nil =>
            have h2 : (2 : Nat) ≤ f' + 1 := le_trans (by simp [need]) hneed
            cases f' with
            | zero => omega
            | succ f'' =>
              show parseValF (f'' + 1 + 1) ('[' :: ']' :: rest) = .ok (Json.arr .nil, rest)
              rw [parseValF_arr_step]
              simp only [parseArrF]
              rw [skipWs_cons_neg _ (by decide)]
              simp
          | cons x tl =>
            have h2 : need (.arr (.cons x tl)) = 2 + needElems (.cons x tl) := rfl
            cases f' with
            | zero =>
              have := needElems_pos x tl
              omega
            | succ f'' =>
              have hne2 : needElems (.cons x tl) ≤ f'' := by omega
              have hsh : dumps (Json.arr (.cons x tl)) ++ rest
                  = '[' :: (dumps x ++ (dumpsArrTail tl ++ ']' :: rest)) := by
                show ('[' :: ((dumps x ++ dumpsArrTail tl) ++ [']'])) ++ rest = _
                simp
              rw [hsh, parseValF_arr_step]
              rcases dumps_cons x with ⟨c, ctl, hceq, hws, hrb, _⟩
              rw [hceq, List.cons_append, parseArrF_step hws hrb,
                ← List.cons_append, ← hceq,
                (ih f'' (by omega)).2.1 x tl [] rest hne2 hwf]
              rw [List.nil_append,
                show JsonList.ofList (x :: tl.toList)
                  = JsonList.cons x (JsonList.ofList tl.toList) from rfl,
                ofList_toList]
        | obj m =>
          cases m with
          | nil =>
            have h2 : (2 : Nat) ≤ f' + 1 := le_trans (by simp [need]) hneed
            cases f' with
            | zero => omega
            | succ f'' =>
              show parseValF (f'' + 1 + 1) ('{' :: '}' :: rest) = .ok (Json.obj .nil, rest)
              rw [parseValF_obj_step]
              simp only [parseObjF]
              rw [skipWs_cons_neg _ (by decide)]
              simp
          | cons k v tl =>
            have h2 : need (.obj (.cons k v tl)) = 2 + needMembers (.cons k v tl) := rfl
            cases f' with
            | zero =>
              have := needMembers_pos k v tl
              omega
            | succ f'' =>
              have hne2 : needMembers (.cons k v tl) ≤ f'' := by omega
              have hsh : dumps (Json.obj (.cons k v tl)) ++ rest
                  = '{' :: ('"' :: (escapeChars k ++ '"' :: ':' :: ' ' ::
                    (dumps v ++ (dumpsObjTail tl ++ '}' :: rest)))) := by
                show ('{' :: ((dumpStr k ++ ':' :: ' ' :: dumps v ++ dumpsObjTail tl)
                    ++ ['}'])) ++ rest = _
                simp [dumpStr]
              rw [hsh, parseValF_obj_step, parseObjF_step_quote,
                (ih f'' (by omega)).2.2 k v tl [] rest hne2 hwf]
              have hnd : ((k, v) :: tl.toPairs).Pairwise (fun a b => a.1 ≠ b.1) :=
                wfMembers_nodup (JsonMembers.cons k v tl) hwf
              rw [List.nil_append, dictFromPairs_of_nodup _ hnd,
                show JsonMembers.ofList ((k, v) :: tl.toPairs)
                  = JsonMembers.cons k v (JsonMembers.ofList tl.toPairs) from rfl,
                ofPairs_toPairs]
    · -- array-element loop
      intro x tl acc rest hne hwfe
      cases f with
      | zero =>
        have := needElems_pos x tl
        omega
      | succ f' =>
        have hsplit : x.wf = true ∧ tl.wfElems = true := by
          have hh : (x.wf && tl.wfElems) = true := hwfe
          simpa [Bool.and_eq_true] using hh
        have hx : need x ≤ f' := by
          cases tl <;> simp [needElems] at hne <;> omega
        rw [parseArrLoopF_ok acc ((ih f' (by omega)).1 x (dumpsArrTail tl ++ ']' :: rest) hx
          (numDelim_arrTail tl rest) hsplit.1)]
        cases tl with
        | nil =>
          rw [show dumpsArrTail JsonList.nil ++ ']' :: rest = ']' :: rest from rfl,
            skipWs_cons_neg _ (by decide)]
          simp [JsonList.toList]
        | cons y tl2 =>
          rw [show dumpsArrTail (JsonList.cons y tl2) ++ ']' :: rest
              = ',' :: ' ' :: (dumps y ++ (dumpsArrTail tl2 ++ ']' :: rest)) by
            show (',' :: ' ' :: dumps y ++ dumpsArrTail tl2) ++ ']' :: rest = _
            simp]
          rw [skipWs_cons_neg _ (by decide)]
          have hcomma : (',' : Char) ≠ ']' := by decide
          simp only [if_neg hcomma, if_pos rfl]
          rw [skipWs_cons_pos _ (by decide), skipWs_dumps]
          have hne2 : needElems (.cons y tl2) ≤ f' := by
            have hh : needElems (.cons x (.cons y tl2))
                = 1 + max (need x) (needElems (.cons y tl2)) := rfl
            omega
          rw [(ih f' (by omega)).2.1 y tl2 (acc ++ [x]) rest hne2 hsplit.2]
          simp [JsonList.toList]
    · -- object-member loop
      intro k v tl acc rest hne hwfm
      cases f with
      | zero =>
        have := needMembers_pos k v tl
        omega
      | succ f' =>
        have hsplit : tl.hasKey k = false ∧ v.wf = true ∧ tl.wfMembers = true := by
          have hh : (!tl.hasKey k && v.wf && tl.wfMembers) = true := hwfm
          simp only [Bool.and_eq_true, Bool.not_eq_true'] at hh
          exact ⟨hh.1.1, hh.1.2, hh.2⟩
        have hv : need v ≤ f' := by
          cases tl <;> simp [needMembers] at hne <;> omega
        rw [parseObjLoopF_step acc
          (scanString_escape k (':' :: ' ' :: (dumps v ++ (dumpsObjTail tl ++ '}' :: rest))))
          (skipWs_dumps v (dumpsObjTail tl ++ '}' :: rest))
          ((ih f' (by omega)).1 v (dumpsObjTail tl ++ '}' :: rest) hv
            (numDelim_objTail tl rest) hsplit.2.1)]
        cases tl with
        | nil =>
          rw [show dumpsObjTail JsonMembers.nil ++ '}' :: rest = '}' :: rest from rfl,
            skipWs_cons_neg _ (by decide)]
          simp [JsonMembers.toPairs]
        | cons k2 v2 tl2 =>
          rw [show dumpsObjTail (JsonMembers.cons k2 v2 tl2) ++ '}' :: rest
              = ',' :: ' ' :: ('"' :: (escapeChars k2 ++ '"' :: ':' :: ' ' ::
                (dumps v2 ++ (dumpsObjTail tl2 ++ '}' :: rest)))) by
            show (',' :: ' ' :: dumpStr k2 ++ ':' :: ' ' :: dumps v2 ++ dumpsObjTail tl2)
                ++ '}' :: rest = _
            simp [dumpStr]]
          rw [skipWs_cons_neg _ (by decide)]
          have hcomma : (',' : Char) ≠ '}' := by decide
          simp only [if_neg hcomma, if_pos rfl]
          rw [skipWs_cons_pos _ (by decide), skipWs_cons_neg _ (by decide)]
          simp only [if_pos rfl]
          have hne2 : needMembers (.cons k2 v2 tl2) ≤ f' := by
            have hh : needMembers (.cons k v (.cons k2 v2 tl2))
                = 1 + max (need v) (needMembers (.cons k2 v2 tl2)) := rfl
            omega
          rw [(ih f' (by omega)).2.2 k2 v2 tl2 (acc ++ [(k, v)]) rest hne2 hsplit.2.2]
          simp [JsonMembers.toPairs]

mutual
theorem need_le : ∀ v : Json, need v ≤ 2 * (dumps v).length
  | .null => by simp [need, dumps]
  | .bool b => by cases b <;> simp [need, dumps]
  | .int n => by
    rcases intToChars_head n with ⟨c, ctl, heq, _⟩
    show need (.int n) ≤ 2 * (intToChars n).length
    rw [heq]
    simp [need]
    omega
  | .str s => by
    show need (.str s) ≤ 2 * (dumpStr s).length
    simp [need, dumpStr]
    omega
  | .arr .nil => by simp [need, dumps]
  | .arr (.cons x tl) => by
    have h := needElems_le (.cons x tl)
    show 2 + needElems (.cons x tl) ≤
      2 * (('[' :: ((dumps x ++ dumpsArrTail tl) ++ [']'])).length)
    simp only [List.length_cons, List.length_append, List.length_singleton] at *
    omega
  | .obj .nil => by simp [need, dumps]
  | .obj (.cons k v tl) => by
    have h := needMembers_le (.cons k v tl)
    show 2 + needMembers (.cons k v tl) ≤
      2 * (('{' :: ((dumpStr k ++ ':' :: ' ' :: dumps v ++ dumpsObjTail tl) ++ ['}'])).length)
    simp only [List.length_cons, List.length_append, List.length_singleton] at *
    omega

theorem needElems_le : ∀ l : JsonList, needElems l ≤
    (match l with
     | .nil => 0
     | .cons x tl => 1 + 2 * ((dumps x).length + (dumpsArrTail tl).length))
  | .nil => by simp [needElems]
  | .cons x .nil => by
    have h := need_le x
    show 1 + need x ≤ 1 + 2 * ((dumps x).length + (dumpsArrTail JsonList.nil).length)
    simp only [dumpsArrTail, List.length_nil]
    omega
  | .cons x (.cons y tl) => by
    have h1 := need_le x
    have h2 := needElems_le (.cons y tl)
    show 1 + max (need x) (needElems (.cons y tl)) ≤
      1 + 2 * ((dumps x).length + (dumpsArrTail (.cons y tl)).length)
    have hlen : (dumpsArrTail (JsonList.cons y tl)).length
        = 2 + (dumps y).length + (dumpsArrTail tl).length := by
      show (',' :: ' ' :: dumps y ++ dumpsArrTail tl).length = _
      simp
      omega
    simp only at h2
    omega

theorem needMembers_le : ∀ m : JsonMembers, needMembers m ≤
    (match m with
     | .nil => 0
     | .cons _ v tl => 1 + 2 * ((dumps v).length + (dumpsObjTail tl).length))
  | .nil => by simp [needMembers]
  | .cons k v .nil => by
    have h := need_le v
    show 1 + need v ≤ 1 + 2 * ((dumps v).length + (dumpsObjTail JsonMembers.nil).length)
    simp only [dumpsObjTail, List.length_nil]
    omega
  | .cons k v (.cons k2 v2 tl) => by
    have h1 := need_le v
    have h2 := needMembers_le (.cons k2 v2 tl)
    show 1 + max (need v) (needMembers (.cons k2 v2 tl)) ≤
      1 + 2 * ((dumps v).length + (dumpsObjTail (.cons k2 v2 tl)).length)
    have hlen : (dumpsObjTail (JsonMembers.cons k2 v2 tl)).length
        = 4 + (dumpStr k2).length + (dumps v2).length + (dumpsObjTail tl).length := by
      show (',' :: ' ' :: dumpStr k2 ++ ':' :: ' ' :: dumps v2 ++ dumpsObjTail tl).length = _
      simp
      omega
    simp only at h2
    omega
end

theorem loads_dumps (v : Json) (hwf : v.wf = true) : loads (dumps v) = .ok v := by
  unfold loads
  have hsw : skipWs (dumps v) = dumps v := by
    have := skipWs_dumps v []
    simpa using this
  rw [hsw]
  have hfuel : need v ≤ 2 * (dumps v).length + 4 := le_trans (need_le v) (by omega)
  have hp := (parse_dumps (2 * (dumps v).length + 4)).1 v [] hfuel trivial hwf
  rw [show dumps v ++ ([] : List Char) = dumps v from by simp] at hp
  rw [hp]
  rfl

theorem utf8EncodeChar_ascii {c : Char} (h : c.toNat < 128) : utf8EncodeChar c = [c.toNat] := by
  simp [utf8EncodeChar, h]

theorem utf8Encode_ascii : ∀ s : List Char, (∀ c ∈ s, c.toNat < 128) →
    utf8Encode s = s.map Char.toNat := by
  intro s h
  induction s with
  | nil => rfl
  | cons c cs ih =>
    show utf8EncodeChar c ++ utf8Encode cs = c.toNat :: cs.map Char.toNat
    rw [utf8EncodeChar_ascii (h c (by simp)), ih (fun x hx => h x (by simp [hx]))]
    rfl

theorem utf8DecodeF_ascii : ∀ (s : List Char) (f : Nat), s.length < f →
    (∀ c ∈ s, c.toNat < 128) → utf8DecodeF f (utf8Encode s) = some s := by
  intro s
  induction s with
  | nil =>
    intro f hf _
    match f with
    | f' + 1 => rfl
  | cons c cs ih =>
    intro f hf hall
    match f with
    | f' + 1 =>
      have hc : c.toNat < 128 := hall c (by simp)
      rw [show utf8Encode (c :: cs) = utf8EncodeChar c ++ utf8Encode cs from rfl,
        utf8EncodeChar_ascii hc, List.cons_append, List.nil_append]
      simp only [utf8DecodeF, if_pos hc]
      rw [ih f' (by simp at hf; omega) (fun x hx => hall x (by simp [hx]))]
      simp [Char.ofNat_toNat]

theorem utf8_roundtrip_ascii (s : List Char) (h : ∀ c ∈ s, c.toNat < 128) :
    utf8Decode (utf8Encode s) = some s := by
  unfold utf8Decode
  apply utf8DecodeF_ascii s _ _ h
  rw [utf8Encode_ascii s h]
  simp

theorem hexDigitChar_lt {d : Nat} (h : d < 16) : (hexDigitChar d).toNat < 128 := by
  unfold hexDigitChar
  by_cases h10 : d < 10
  · rw [if_pos h10, toNat_ofNat_small _ (by omega)]
    omega
  · rw [if_neg h10, toNat_ofNat_small _ (by omega)]
    omega

theorem toHex4_ascii (n : Nat) : ∀ c ∈ toHex4 n, c.toNat < 128 := by
  intro c hc
  simp only [toHex4, List.mem_cons, List.mem_singleton] at hc
  rcases hc with rfl | rfl | rfl | rfl | h
  · exact hexDigitChar_lt (Nat.mod_lt _ (by omega))
  · exact hexDigitChar_lt (Nat.mod_lt _ (by omega))
  · exact hexDigitChar_lt (Nat.mod_lt _ (by omega))
  · exact hexDigitChar_lt (Nat.mod_lt _ (by omega))
  · cases h

theorem escapeChar_ascii (c : Char) : ∀ e ∈ escapeChar c, e.toNat < 128 := by
  intro e he
  unfold escapeChar at he
  by_cases h1 : c = '\\'
  · rw [if_pos h1] at he
    simp at he
    rcases he with rfl | rfl <;> decide
  · rw [if_neg h1] at he
    by_cases h2 : c = '"'
    · rw [if_pos h2] at he
      simp at he
      rcases he with rfl | rfl <;> decide
    · rw [if_neg h2] at he
      by_cases h8 : c.toNat = 8
      · rw [if_pos h8] at he
        simp at he
        rcases he with rfl | rfl <;> decide
      · rw [if_neg h8] at he
        by_cases h9 : c.toNat = 9
        · rw [if_pos h9] at he
          simp at he
          rcases he with rfl | rfl <;> decide
        · rw [if_neg h9] at he
          by_cases h10 : c.toNat = 10
          · rw [if_pos h10] at he
            simp at he
            rcases he with rfl | rfl <;> decide
          · rw [if_neg h10] at he
            by_cases h12 : c.toNat = 12
            · rw [if_pos h12] at he
              simp at he
              rcases he with rfl | rfl <;> decide
            · rw [if_neg h12] at he
              by_cases h13 : c.toNat = 13
              · rw [if_pos h13] at he
                simp at he
                rcases he with rfl | rfl <;> decide
              · rw [if_neg h13] at he
                by_cases hout : c.toNat < 32 ∨ 126 < c.toNat
                · rw [if_pos hout] at he
                  by_cases hbmp : c.toNat < 65536
                  · rw [if_pos hbmp] at he
                    rcases List.mem_cons.mp he with rfl | he2
                    · decide
                    · rcases List.mem_cons.mp he2 with rfl | he3
                      · decide
                      · exact toHex4_ascii _ e he3
                  · rw [if_neg hbmp] at he
                    rcases List.mem_append.mp he with he2 | he2
                    · rcases List.mem_cons.mp he2 with rfl | he3
                      · decide
                      · rcases List.mem_cons.mp he3 with rfl | he4
                        · decide
                        · exact toHex4_ascii _ e he4
                    · rcases List.mem_cons.mp he2 with rfl | he3
                      · decide
                      · rcases List.mem_cons.mp he3 with rfl | he4
                        · decide
                        · exact toHex4_ascii _ e he4
                · rw [if_neg hout] at he
                  simp at he
                  subst he
                  omega

theorem escapeChars_ascii : ∀ s : List Char, ∀ e ∈ escapeChars s, e.toNat < 128 := by
  intro s
  induction s with
  | nil => intro e he; cases he
  | cons c cs ih =>
    intro e he
    rcases List.mem_append.mp he with h | h
    · exact escapeChar_ascii c e h
    · exact ih e h

theorem dumpStr_ascii (s : List Char) : ∀ e ∈ dumpStr s, e.toNat < 128 := by
  intro e he
  rcases List.mem_cons.mp he with rfl | he2
  · decide
  · rcases List.mem_append.mp he2 with h | h
    · exact escapeChars_ascii s e h
    · simp at h
      subst h
      decide

theorem intToChars_ascii (n : Int) : ∀ e ∈ intToChars n, e.toNat < 128 := by
  intro e he
  unfold intToChars at he
  by_cases hn : n < 0
  · rw [if_pos hn] at he
    rcases List.mem_cons.mp he with rfl | h
    · decide
    · rcases natToChars_digits _ e h with ⟨d, hd, rfl⟩
      rw [digitChar_toNat hd]
      omega
  · rw [if_neg hn] at he
    rcases natToChars_digits _ e he with ⟨d, hd, rfl⟩
    rw [digitChar_toNat hd]
    omega

mutual
theorem dumps_ascii : ∀ v : Json, ∀ e ∈ dumps v, e.toNat < 128
  | .null => by
    intro e he
    simp [dumps] at he
    rcases he with rfl | rfl | rfl <;> decide
  | .bool true => by
    intro e he
    simp [dumps] at he
    rcases he with rfl | rfl | rfl | rfl <;> decide
  | .bool false => by
    intro e he
    simp [dumps] at he
    rcases he with rfl | rfl | rfl | rfl | rfl <;> decide
  | .int n => intToChars_ascii n
  | .str s => dumpStr_ascii s
  | .arr .nil => by
    intro e he
    simp [dumps] at he
    rcases he with rfl | rfl <;> decide
  | .arr (.cons x tl) => by
    intro e he
    rcases List.mem_cons.mp he with rfl | he2
    · decide
    · rcases List.mem_append.mp he2 with h | h
      · rcases List.mem_append.mp h with h2 | h2
        · exact dumps_ascii x e h2
        · exact dumpsArrTail_ascii tl e h2
      · simp at h
        subst h
        decide
  | .obj .nil => by
    intro e he
    simp [dumps] at he
    rcases he with rfl | rfl <;> decide
  | .obj (.cons k v tl) => by
    intro e he
    rcases List.mem_cons.mp he with rfl | he2
    · decide
    · rcases List.mem_append.mp he2 with h | h
      · rcases List.mem_append.mp h with h2 | h2
        · rcases List.mem_append.mp h2 with h3 | h3
          · exact dumpStr_ascii k e h3
          · rcases List.mem_cons.mp h3 with rfl | h4
            · decide
            · rcases List.mem_cons.mp h4 with rfl | h5
              · decide
              · exact dumps_ascii v e h5
        · exact dumpsObjTail_ascii tl e h2
      · simp at h
        subst h
        decide

theorem dumpsArrTail_ascii : ∀ l : JsonList, ∀ e ∈ dumpsArrTail l, e.toNat < 128
  | .nil => by
    intro e he
    cases he
  | .cons x tl => by
    intro e he
    rcases List.mem_cons.mp he with rfl | he2
    · decide
    · rcases List.mem_cons.mp he2 with rfl | he3
      · decide
      · rcases List.mem_append.mp he3 with h | h
        · exact dumps_ascii x e h
        · exact dumpsArrTail_ascii tl e h

theorem dumpsObjTail_ascii : ∀ m : JsonMembers, ∀ e ∈ dumpsObjTail m, e.toNat < 128
  | .nil => by
    intro e he
    cases he
  | .cons k v tl => by
    intro e he
    rcases List.mem_cons.mp he with rfl | he2
    · decide
    · rcases List.mem_cons.mp he2 with rfl | he3
      · decide
      · rcases List.mem_append.mp he3 with h | h
        · rcases List.mem_append.mp h with h2 | h2
          · exact dumpStr_ascii k e h2
          · rcases List.mem_cons.mp h2 with rfl | h3
            · decide
            · rcases List.mem_cons.mp h3 with rfl | h4
              · decide
              · exact dumps_ascii v e h4
        · exact dumpsObjTail_ascii tl e h
end

theorem leVal_toLE4 {n : Nat} (h : n < 4294967296) : leVal (toLE4 n) = n := by
  show n % 256 + 256 * (n / 256 % 256) + 65536 * (n / 65536 % 256) +
    16777216 * (n / 16777216 % 256) = n
  omega

theorem readMessage_frame (n : Nat) (rest : List Nat) (h : n < 4294967296) :
    readMessage (toLE4 n ++ rest) =
      ((match utf8Decode (rest.take n) with
        | none => Except.error Fault.unicodeError
        | some text =>
          match loads text with
          | .error e => Except.error e
          | .ok v => Except.ok (some v)), rest.drop n) := by
  have ht : (toLE4 n ++ rest).take 4 = toLE4 n := rfl
  have hd : (toLE4 n ++ rest).drop 4 = rest := rfl
  have hlen : (toLE4 n).length = 4 := rfl
  simp only [readMessage, ht, hd, hlen, leVal_toLE4 h]
  norm_num
  cases hu : utf8Decode (rest.take n) with
  | none => rfl
  | some text =>
    cases hl : loads text with
    | error e => simp [hl]
    | ok v => simp [hl]

theorem frame_roundtrip (v : Json) (extra : List Nat) (hwf : v.wf = true)
    (hlen : (utf8Encode (dumps v)).length < 4294967296) :
    readMessage (frameBytes v ++ extra) = (.ok (some v), extra) := by
  have hframe : frameBytes v ++ extra
      = toLE4 (utf8Encode (dumps v)).length ++ (utf8Encode (dumps v) ++ extra) := by
    simp [frameBytes]
  rw [hframe, readMessage_frame _ _ hlen]
  have htake : (utf8Encode (dumps v) ++ extra).take (utf8Encode (dumps v)).length
      = utf8Encode (dumps v) := List.take_left _ _
  have hdrop : (utf8Encode (dumps v) ++ extra).drop (utf8Encode (dumps v)).length
      = extra := List.drop_left _ _
  rw [htake, hdrop, utf8_roundtrip_ascii _ (dumps_ascii v)]
  simp [loads_dumps v hwf]

theorem readMessage_snd_lt (input : List Nat) (h : input ≠ []) :
    (readMessage input).2.length < input.length := by
  cases input with
  | nil => exact absurd rfl h
  | cons b tl =>
    simp only [readMessage]
    split_ifs with h1 h2
    · simp [List.length_take] at h1
    · simp only [List.length_drop, List.length_cons]
      omega
    · split
      · simp only [List.length_drop, List.length_cons]
        omega
      · split
        · simp only [List.length_drop, List.length_cons]
          omega
        · simp only [List.length_drop, List.length_cons]
          omega

theorem readMessage_nil : readMessage ([] : List Nat) = (.ok none, []) := rfl

theorem loopF_congr (env : Env) : ∀ f g input wc, input.length < f → input.length < g →
    loopF env f input wc = loopF env g input wc := by
  intro f
  induction f with
  | zero =>
    intro g input wc hf _
    omega
  | succ f ih =>
    intro g input wc hf hg
    match g with
    | g' + 1 =>
      by_cases hne : input = []
      · subst hne
        rfl
      · have hstep := readMessage_snd_lt input hne
        cases hr : readMessage input with
        | mk out rest =>
          rw [hr] at hstep
          have hlt : rest.length < input.length := hstep
          cases out with
          | error e =>
            simp only [loopF, hr]
            rw [ih g' rest (wc + 1) (by omega) (by omega)]
          | ok o =>
            cases o with
            | none => simp only [loopF, hr]
            | some msg =>
              simp only [loopF, hr]
              by_cases ht : msg.truthy = false
              · rw [if_pos ht, if_pos ht]
              · rw [if_neg ht, if_neg ht]
                split
                · split
                  · rw [ih g' rest (wc + 1) (by omega) (by omega)]
                  · rw [ih g' rest (wc + 2) (by omega) (by omega)]
                · rw [ih g' rest (wc + 1) (by omega) (by omega)]

theorem mainFrom_congr_fuel {env : Env} {rest : List Nat} {wc : Nat} (f : Nat)
    (h : rest.length < f) : loopF env f rest wc = mainFrom env rest wc :=
  loopF_congr env f (rest.length + 1) rest wc h (by omega)

theorem readMessage_ne_nil_of_error {input : List Nat} {e : Fault} {rest : List Nat}
    (h : readMessage input = (.error e, rest)) : input ≠ [] := by
  intro he
  subst he
  rw [readMessage_nil] at h
  simp at h

theorem readMessage_ne_nil_of_some {input : List Nat} {msg : Json} {rest : List Nat}
    (h : readMessage input = (.ok (some msg), rest)) : input ≠ [] := by
  intro he
  subst he
  rw [readMessage_nil] at h
  simp at h

theorem mainFrom_read_error {env : Env} {input : List Nat} {wc : Nat} {e : Fault}
    {rest : List Nat} (h : readMessage input = (.error e, rest)) :
    mainFrom env input wc = errorWriteOut env wc e ++ mainFrom env rest (wc + 1) := by
  have hne := readMessage_ne_nil_of_error h
  have hlt : rest.length < input.length := by
    have := readMessage_snd_lt input hne
    rw [h] at this
    exact this
  have hmain : mainFrom env input wc = loopF env (input.length + 1) input wc := rfl
  rw [hmain]
  simp only [loopF, h]
  rw [mainFrom_congr_fuel input.length hlt]

theorem mainFrom_msg_step {env : Env} {input : List Nat} {wc : Nat} {msg : Json}
    {rest : List Nat} (h : readMessage input = (.ok (some msg), rest))
    (ht : msg.truthy = true) :
    mainFrom env input wc =
      (match dispatch env msg with
       | .ok resp =>
         match writeAttempt env wc resp with
         | .ok _ => resp :: mainFrom env rest (wc + 1)
         | .error e => errorWriteOut env (wc + 1) e ++ mainFrom env rest (wc + 2)
       | .error e => errorWriteOut env wc e ++ mainFrom env rest (wc + 1)) := by
  have hne := readMessage_ne_nil_of_some h
  have hlt : rest.length < input.length := by
    have := readMessage_snd_lt input hne
    rw [h] at this
    exact this
  have hmain : mainFrom env input wc = loopF env (input.length + 1) input wc := rfl
  rw [hmain]
  simp only [loopF, h]
  rw [if_neg (by simp [ht])]
  split
  · split
    · rw [mainFrom_congr_fuel input.length hlt]
    · rw [mainFrom_congr_fuel input.length hlt]
  · rw [mainFrom_congr_fuel input.length hlt]

theorem JsonMembers.lookup_eq_none : ∀ {ms : JsonMembers} {key : List Char},
    ms.hasKey key = false → ms.lookup key = none
  | .nil, _, _ => rfl
  | .cons k v tl, key, h => by
    simp only [JsonMembers.hasKey, Bool.or_eq_false_iff, decide_eq_false_iff_not] at h
    simp only [JsonMembers.lookup, if_neg h.1]
    exact JsonMembers.lookup_eq_none h.2

theorem JsonMembers.getD_default {ms : JsonMembers} {key : List Char} {d : Json}
    (h : ms.hasKey key = false) : ms.getD key d = d := by
  simp only [JsonMembers.getD, JsonMembers.lookup_eq_none h]

/-! The claims. -/

/-- C1: refuted as stated — the loop's stop condition is not end-of-stream
alone.  End-of-stream (an empty read) does stop the loop cleanly with no
response, but `if not message: break` also stops it on any falsy decoded
message: `{}` decodes successfully, yet the loop emits no response for it
and never reaches the following `ping` frame, which alone would be
answered. -/
theorem C1_falsy_message_stops_loop :
    readMessage ([] : List Nat) = (.ok none, []) ∧
    mainLoop env0 [] = [] ∧
    readMessage (frameBytes (.obj .nil) ++ frameBytes pingMsg) =
      (.ok (some (.obj .nil)), frameBytes pingMsg) ∧
    mainLoop env0 (frameBytes (.obj .nil) ++ frameBytes pingMsg) = [] ∧
    mainLoop env0 (frameBytes pingMsg) = [pongResp] :=
  ⟨rfl, rfl, rfl, rfl, rfl⟩

/-- C2: every fault from reading or decoding one frame is contained in its
iteration: the loop writes (or attempts to write) the error response
`{"type": "error", "message": str(e)}` and continues with the remaining
input; a failure of that write is swallowed. -/
theorem C2_read_fault_contained (env : Env) (input : List Nat) (wc : Nat)
    (e : Fault) (rest : List Nat) (h : readMessage input = (.error e, rest)) :
    mainFrom env input wc = errorWriteOut env wc e ++ mainFrom env rest (wc + 1) ∧
    (∀ u, writeAttempt env wc (errResp (describe e)) = .ok u →
      errorWriteOut env wc e = [errResp (describe e)]) ∧
    (∀ f, writeAttempt env wc (errResp (describe e)) = .error f →
      errorWriteOut env wc e = []) := by
  refine ⟨mainFrom_read_error h, ?_, ?_⟩
  · intro u hu
    simp only [errorWriteOut, hu]
  · intro f hf
    simp only [errorWriteOut, hf]

/-- Concrete instance of the fault-containment theorem: a one-byte payload
that is not valid UTF-8. -/
theorem C2_read_fault_contained_witness :
    mainFrom env0 [1, 0, 0, 0, 255] 0 =
      errorWriteOut env0 0 .unicodeError ++ mainFrom env0 [] 1 ∧
    (∀ u, writeAttempt env0 0 (errResp (describe .unicodeError)) = .ok u →
      errorWriteOut env0 0 .unicodeError = [errResp (describe .unicodeError)]) ∧
    (∀ f, writeAttempt env0 0 (errResp (describe .unicodeError)) = .error f →
      errorWriteOut env0 0 .unicodeError = []) :=
  C2_read_fault_contained env0 [1, 0, 0, 0, 255] 0 .unicodeError [] rfl

/-- C3: the framing-fault half is narrower than claimed: a 1–3 byte read
for the *length prefix* raises `struct.error` (first conjunct, over every
such input), but a short payload read is not detected — for every declared
length `n` and every available byte sequence `rest`, the codec decodes
`rest.take n` as-is (second conjunct, the full characterization of a read
after a well-formed prefix), succeeding whenever those bytes are valid
UTF-8 JSON (fifth conjunct) and failing with the claimed decode faults
whenever they are not valid UTF-8 (third conjunct) or not valid JSON
(fourth conjunct). -/
theorem C3_framing_decode_faults (input : List Nat) (n : Nat) (rest : List Nat)
    (h0 : 0 < input.length) (h4 : input.length < 4) (hn : n < 4294967296) :
    readMessage input = (.error .structError, input.drop 4) ∧
    readMessage (toLE4 n ++ rest) =
      ((match utf8Decode (rest.take n) with
        | none => .error .unicodeError
        | some text =>
          match loads text with
          | .error e => .error e
          | .ok v => .ok (some v)), rest.drop n) ∧
    (utf8Decode (rest.take n) = none →
      readMessage (toLE4 n ++ rest) = (.error .unicodeError, rest.drop n)) ∧
    (∀ text f, utf8Decode (rest.take n) = some text → loads text = .error f →
      readMessage (toLE4 n ++ rest) = (.error f, rest.drop n)) ∧
    (∀ text v, utf8Decode (rest.take n) = some text → loads text = .ok v →
      readMessage (toLE4 n ++ rest) = (.ok (some v), rest.drop n)) := by
  refine ⟨?_, readMessage_frame n rest hn, ?_, ?_, ?_⟩
  · cases input with
    | nil => simp at h0
    | cons b tl =>
      simp only [List.length_cons] at h4
      simp only [readMessage]
      rw [if_neg (by simp only [List.length_take, List.length_cons]; omega),
          if_pos (by simp only [List.length_take, List.length_cons]; omega)]
  · intro h
    rw [readMessage_frame n rest hn]
    simp only [h]
  · intro text f h1 h2
    rw [readMessage_frame n rest hn]
    simp only [h1, h2]
  · intro text v h1 h2
    rw [readMessage_frame n rest hn]
    simp only [h1, h2]

/-- Concrete instance of the framing/decode fault theorem: a two-byte
truncated length prefix, and a declared length of 100 over one available
payload byte `"1"`. -/
theorem C3_framing_decode_faults_witness :
    readMessage [7, 7] = (.error .structError, []) ∧
    readMessage (toLE4 100 ++ [49]) = (.ok (some (.int 1)), []) ∧
    (utf8Decode (List.take 100 [49]) = none →
      readMessage (toLE4 100 ++ [49]) = (.error .unicodeError, List.drop 100 [49])) ∧
    (∀ text f, utf8Decode (List.take 100 [49]) = some text → loads text = .error f →
      readMessage (toLE4 100 ++ [49]) = (.error f, List.drop 100 [49])) ∧
    (∀ text v, utf8Decode (List.take 100 [49]) = some text → loads text = .ok v →
      readMessage (toLE4 100 ++ [49]) = (.ok (some v), List.drop 100 [49])) :=
  C3_framing_decode_faults [7, 7] 100 [49] (by decide) (by decide) (by decide)

/-- The spec's short-read clause refuted on a concrete frame: a declared
payload length of 100 with a single available byte `"1"` is decoded
successfully instead of failing with a framing fault. -/
theorem C3_short_payload_counterexample :
    readMessage [100, 0, 0, 0, 49] = (.ok (some (.int 1)), []) := rfl

/-- C4: a `download` message extracts `url` and `filename` with
empty-string defaults and invokes the handler, whose result depends only
on `url` — but contrary to the claim, `filename` is *not* preserved in the
response: the reply is exactly
`{"type": "download_response", "success": b, "url": url}` with no
`filename` key. -/
theorem C4_download_dispatch (env : Env) (ms : JsonMembers) :
    dispatch env (.obj ms) = .ok (respondTo env ms (ms.getD "type".data (.str []))) ∧
    respondTo env ms (.str "download".data) =
      downloadResp env (ms.getD "url".data (.str [])) (ms.getD "filename".data (.str [])) ∧
    (∀ url f1 f2, handle_download env url f1 = handle_download env url f2) ∧
    (∀ url filename, downloadResp env url filename =
      .obj (.cons "type".data (.str "download_response".data)
        (.cons "success".data (.bool (handle_download env url filename))
          (.cons "url".data url .nil)))) ∧
    (∀ url filename,
      (JsonMembers.cons "type".data (.str "download_response".data)
        (.cons "success".data (.bool (handle_download env url filename))
          (.cons "url".data url .nil))).hasKey "filename".data = false) := by
  refine ⟨rfl, ?_, fun _ _ _ => rfl, fun _ _ => rfl, fun _ _ => rfl⟩
  simp [respondTo]

/-- A concrete download dispatch showing the response carries no
`filename` key even when the request supplies one. -/
theorem C4_no_filename_counterexample :
    respondTo env0 (.ofList [("type".data, .str "download".data),
        ("url".data, .str "u".data), ("filename".data, .str "f.bin".data)])
      (.str "download".data) =
    .obj (.cons "type".data (.str "download_response".data)
      (.cons "success".data (.bool false)
        (.cons "url".data (.str "u".data) .nil))) ∧
    (JsonMembers.cons "type".data (.str "download_response".data)
      (.cons "success".data (.bool false)
        (.cons "url".data (.str "u".data) .nil))).hasKey "filename".data = false :=
  ⟨rfl, rfl⟩

/-- C5: an object whose `type` is a string `t` outside
`{ping, download, status}` — the empty string included — is answered with
exactly `{"type": "error", "message": "Unknown message type: " + t}`, and
an object without a `type` key is dispatched with the default `''`. -/
theorem C5_unknown_type (env : Env) (ms : JsonMembers) (t : List Char)
    (h1 : t ≠ "ping".data) (h2 : t ≠ "download".data) (h3 : t ≠ "status".data) :
    respondTo env ms (.str t) = errResp ("Unknown message type: ".data ++ t) ∧
    (ms.hasKey "type".data = false →
      dispatch env (.obj ms) = .ok (respondTo env ms (.str []))) := by
  constructor
  · simp only [respondTo]
    rw [if_neg h1, if_neg h2, if_neg h3]
  · intro hk
    simp only [dispatch, JsonMembers.getD_default hk]

/-- Concrete instance of the unknown-type theorem at `t = "bogus"` on an
object with no `type` key. -/
theorem C5_unknown_type_witness :
    respondTo env0 .nil (.str "bogus".data) =
      errResp ("Unknown message type: ".data ++ "bogus".data) ∧
    (JsonMembers.nil.hasKey "type".data = false →
      dispatch env0 (.obj .nil) = .ok (respondTo env0 .nil (.str []))) :=
  C5_unknown_type env0 .nil "bogus".data (by decide) (by decide) (by decide)

/-- C6: the download handler is total over the modelled faults — it
returns a bare boolean for every `url` value — probes the two hard-coded
candidate paths in their fixed order taking the first that exists, returns
`false` with no launch attempted when none exists or when `url` is not a
string (`subprocess.run` raises while building the command, caught by the
handler), and otherwise reports the launch command's success. -/
theorem C6_action_invoker (env : Env) (url filename : Json) :
    handle_download env url filename = (handleDownloadCore env url).1 ∧
    (appPaths.find? env.pathExists = none → handleDownloadCore env url = (false, false)) ∧
    (∀ p s, appPaths.find? env.pathExists = some p → url = .str s →
      handleDownloadCore env url = (env.runOk p s, true)) ∧
    (∀ p, appPaths.find? env.pathExists = some p → (∀ s, url ≠ .str s) →
      handleDownloadCore env url = (false, false)) ∧
    (∀ p, appPaths.find? env.pathExists = some p →
      env.pathExists p = true ∧ p ∈ appPaths) ∧
    (∀ p q, appPaths = [p, q] → appPaths.find? env.pathExists =
      (if env.pathExists p then some p else if env.pathExists q then some q else none)) := by
  refine ⟨rfl, ?_, ?_, ?_, ?_, ?_⟩
  · intro h
    simp only [handleDownloadCore, h]
  · intro p s hf hu
    simp only [handleDownloadCore, hf, hu]
  · intro p hf hns
    cases url with
    | str s => exact absurd rfl (hns s)
    | null => simp only [handleDownloadCore, hf]
    | bool b => simp only [handleDownloadCore, hf]
    | int n => simp only [handleDownloadCore, hf]
    | arr xs => simp only [handleDownloadCore, hf]
    | obj ms => simp only [handleDownloadCore, hf]
  · intro p hf
    exact ⟨List.find?_some hf, List.mem_of_find?_eq_some hf⟩
  · intro p q hpq
    rw [hpq]
    cases hp : env.pathExists p <;> cases hq : env.pathExists q <;>
      simp [List.find?, hp, hq]

/-- Concrete instance of the invoker theorem: no candidate path exists, so
the handler reports failure with no launch attempted. -/
theorem C6_action_invoker_witness :
    handleDownloadCore env0 (.str "u".data) = (false, false) :=
  (C6_action_invoker env0 (.str "u".data) .null).2.1 rfl

/-- C7: codec round trip — for every well-formed JSON value whose encoded
payload fits the 32-bit length field, `write_message` puts exactly one
frame on the wire and `read_message` decodes that frame back to an equal
value, leaving any following bytes untouched. -/
theorem C7_codec_roundtrip (v : Json) (extra : List Nat) (hwf : v.wf = true)
    (hlen : (utf8Encode (dumps v)).length < 4294967296) :
    (∃ ops, writeOps v = .ok ops ∧ opsBytes ops = frameBytes v) ∧
    readMessage (frameBytes v ++ extra) = (.ok (some v), extra) := by
  refine ⟨⟨[.write (toLE4 (utf8Encode (dumps v)).length),
            .write (utf8Encode (dumps v)), .flush], ?_, ?_⟩,
          frame_roundtrip v extra hwf hlen⟩
  · simp only [writeOps]
    rw [if_pos hlen]
  · simp [opsBytes, frameBytes]

/-- Concrete instance of the round-trip theorem on the `ping` message. -/
theorem C7_codec_roundtrip_witness :
    (∃ ops, writeOps pingMsg = .ok ops ∧ opsBytes ops = frameBytes pingMsg) ∧
    readMessage (frameBytes pingMsg ++ []) = (.ok (some pingMsg), []) :=
  C7_codec_roundtrip pingMsg [] rfl (by decide)

/-- C8: frame layout — `write_message` emits the 4-byte unsigned
little-endian length field, then exactly the payload bytes, then a flush,
nothing else; on the read side the 4 length bytes decode back to the
written number and exactly that many bytes are consumed from the stream
after the prefix. -/
theorem C8_frame_layout (m : Json) (n : Nat) (rest : List Nat)
    (hm : (utf8Encode (dumps m)).length < 4294967296) (hn : n < 4294967296) :
    writeOps m = .ok [.write (toLE4 (utf8Encode (dumps m)).length),
                      .write (utf8Encode (dumps m)), .flush] ∧
    frameBytes m = toLE4 (utf8Encode (dumps m)).length ++ utf8Encode (dumps m) ∧
    (toLE4 n).length = 4 ∧
    leVal (toLE4 n) = n ∧
    (readMessage (toLE4 n ++ rest)).2 = rest.drop n := by
  refine ⟨?_, rfl, rfl, leVal_toLE4 hn, ?_⟩
  · simp only [writeOps]
    rw [if_pos hm]
  · rw [readMessage_frame n rest hn]

/-- Concrete instance of the frame-layout theorem on the status response
and a length-5 prefix over six stream bytes. -/
theorem C8_frame_layout_witness :
    writeOps statusResp = .ok [.write (toLE4 (utf8Encode (dumps statusResp)).length),
                               .write (utf8Encode (dumps statusResp)), .flush] ∧
    frameBytes statusResp =
      toLE4 (utf8Encode (dumps statusResp)).length ++ utf8Encode (dumps statusResp) ∧
    (toLE4 5).length = 4 ∧
    leVal (toLE4 5) = 5 ∧
    (readMessage (toLE4 5 ++ [1, 2, 3, 4, 5, 6])).2 = List.drop 5 [1, 2, 3, 4, 5, 6] :=
  C8_frame_layout statusResp 5 [1, 2, 3, 4, 5, 6] (by decide) (by decide)

/-- C9: the idempotent-response half holds — any number of consecutive
`ping` frames alone yields that many identical `pong` responses — but the
independence half is refuted: a preceding falsy message (here the JSON
value `0`) stops the loop, so the very same two `ping` frames then produce
no response at all.  Earlier messages do influence later handling. -/
theorem C9_ping_sequence :
    (∀ k wc, mainFrom env0 (pingFrames k) wc = List.replicate k pongResp) ∧
    mainFrom env0 (frameBytes (.int 0) ++ pingFrames 2) 0 = [] := by
  constructor
  · intro k
    induction k with
    | zero => intro wc; rfl
    | succ k ih =>
      intro wc
      have hr : readMessage (pingFrames (k + 1)) = (.ok (some pingMsg), pingFrames k) :=
        frame_roundtrip pingMsg (pingFrames k) rfl (by decide)
      rw [mainFrom_msg_step hr rfl]
      show pongResp :: mainFrom env0 (pingFrames k) (wc + 1) = List.replicate (k + 1) pongResp
      rw [ih (wc + 1), List.replicate_succ]
  · rfl

/-- C10: a successfully decoded message that is truthy but not a JSON
object does not crash the loop: `message.get` raises `AttributeError`
(carrying the Python type name), the iteration's handler builds and
attempts the error response, and the loop continues with the remaining
input. -/
theorem C10_truthy_non_object (env : Env) (input : List Nat) (wc : Nat)
    (msg : Json) (rest : List Nat) (h : readMessage input = (.ok (some msg), rest))
    (ht : msg.truthy = true) (hno : msg.isObj = false) :
    dispatch env msg = .error (.attrError (pyTypeName msg)) ∧
    mainFrom env input wc =
      errorWriteOut env wc (.attrError (pyTypeName msg)) ++ mainFrom env rest (wc + 1) := by
  have hd : dispatch env msg = .error (.attrError (pyTypeName msg)) := by
    cases msg with
    | obj ms => simp [Json.isObj] at hno
    | null => rfl
    | bool b => rfl
    | int n => rfl
    | str s => rfl
    | arr xs => rfl
  refine ⟨hd, ?_⟩
  rw [mainFrom_msg_step h ht]
  simp only [hd]

/-- Concrete instance of the non-object containment theorem on the decoded
message `5`. -/
theorem C10_truthy_non_object_witness :
    dispatch env0 (.int 5) = .error (.attrError (pyTypeName (.int 5))) ∧
    mainFrom env0 (frameBytes (.int 5)) 0 =
      errorWriteOut env0 0 (.attrError (pyTypeName (.int 5))) ++ mainFrom env0 [] 1 :=
  C10_truthy_non_object env0 (frameBytes (.int 5)) 0 (.int 5) [] rfl rfl rfl

end NativeHost
